import Mathlib

/-!
Verification of the jingo ahead-of-time JSON encoder (struct / slice / map
plan compilers and their Marshal execution), shallowly embedded from the Go
source.  Buffers are byte lists, Go values are modelled by an inductive
`Val`, Go types (reflect shapes) by `Ty`, and every compile function returns
an `Except String` mirroring the Go panics raised during construction.
Instructions are modelled as functions from a value and a buffer to an
optional buffer; a `none` result models a runtime fault (calling a nil
instruction).  Notes on scope: floating point, time.Time, the stringer and
TextMarshaler capabilities and fixed arrays are outside the modelled type
universe; none of the claims exercises them, and the spec itself treats
primitive rendering as an external collaborator.
-/

namespace Jingo

/-- A byte buffer, modelling jingo.Buffer: Write and WriteByte append. -/
abbrev Buffer := List Nat

/-- UTF-8 bytes of one character, modelling how Go stores text. -/
def charBytes (c : Char) : List Nat :=
  let n := c.toNat
  if n < 128 then [n]
  else if n < 2048 then [192 + n / 64, 128 + n % 64]
  else if n < 65536 then [224 + n / 4096, 128 + (n / 64) % 64, 128 + n % 64]
  else [240 + n / 262144, 128 + (n / 4096) % 64, 128 + (n / 64) % 64, 128 + n % 64]

/-- The bytes of a Go string. -/
def strBytes (s : String) : List Nat :=
  s.toList.foldr (fun c acc => charBytes c ++ acc) []

/-- Byte-wise lexicographic comparison, modelling bytes.Compare _ _ < 0
(the mapSlice.Less order): a strict prefix sorts first. -/
def lexLt : List Nat → List Nat → Bool
  | [], [] => false
  | [], _ :: _ => true
  | _ :: _, [] => false
  | a :: as, b :: bs => if a < b then true else if b < a then false else lexLt as bs

/-- Byte-wise lexicographic less-or-equal on rendered key text. -/
def lexLe : List Nat → List Nat → Bool
  | [], _ => true
  | _ :: _, [] => false
  | a :: as, b :: bs => if a < b then true else if b < a then false else lexLe as bs

/-- Config mirrors jingo.Config: a uint8 flag set; bit 0 is sortMapKeys. -/
structure Config where
  mapEncoder : Nat
deriving DecidableEq

/-- The sortMapKeys flag bit. -/
def sortMapKeys : Nat := 1

/-- Config.SetSortMapKeys from mapencoder.go (uint8 masking). -/
def Config.SetSortMapKeys (c : Config) (b : Bool) : Config :=
  if b then { mapEncoder := c.mapEncoder ||| sortMapKeys }
  else { mapEncoder := c.mapEncoder &&& 254 }

/-- Config.SortMapKeys from mapencoder.go. -/
def Config.SortMapKeys (c : Config) : Bool :=
  c.mapEncoder &&& sortMapKeys != 0

/-- DefaultConfig: map keys unsorted. -/
def DefaultConfig : Config := Config.SetSortMapKeys { mapEncoder := 0 } false

/-- A sorted-keys configuration, as built by tests via SetSortMapKeys true. -/
def SortedConfig : Config := Config.SetSortMapKeys { mapEncoder := 0 } true

/-- Shapes (reflect types) of the modelled universe.  A struct field is
(go field name, json tag string, field type).  chan / func / complex are
the unsupported kinds the struct compiler panics on. -/
inductive Ty where
  | bool | int | int8 | int16 | int32 | int64
  | uint | uint8 | uint16 | uint32 | uint64
  | string
  | ptr (elem : Ty)
  | slice (elem : Ty)
  | struct (fields : List (String × String × Ty))
  | map (key elem : Ty)
  | chan | func | complex64 | complex128

/-- reflect.Kind.String() for the modelled kinds (used in panic messages). -/
def kindName : Ty → String
  | .bool => "bool"
  | .int => "int"
  | .int8 => "int8"
  | .int16 => "int16"
  | .int32 => "int32"
  | .int64 => "int64"
  | .uint => "uint"
  | .uint8 => "uint8"
  | .uint16 => "uint16"
  | .uint32 => "uint32"
  | .uint64 => "uint64"
  | .string => "string"
  | .ptr _ => "ptr"
  | .slice _ => "slice"
  | .struct _ => "struct"
  | .map _ _ => "map"
  | .chan => "chan"
  | .func => "func"
  | .complex64 => "complex64"
  | .complex128 => "complex128"

/-- Runtime values.  A Go pointer is an optional pointee, a map value is
nil or an entry list in the order the native iterator yields it this call,
and `other` stands for values of unmodelled kinds. -/
inductive Val where
  | vbool (b : Bool)
  | vint (i : Int)
  | vuint (n : Nat)
  | vstr (s : String)
  | vptr (p : Option Val)
  | vslice (elems : List Val)
  | vstruct (fs : List Val)
  | vmap (entries : Option (List (Val × Val)))
  | other

/-- Read a bool out of memory (the value is assumed shape-correct). -/
def asBool : Val → Bool
  | .vbool b => b
  | _ => false

/-- Read a signed integer out of memory. -/
def asInt : Val → Int
  | .vint i => i
  | _ => 0

/-- Read an unsigned integer out of memory. -/
def asUint : Val → Nat
  | .vuint n => n
  | _ => 0

/-- Read a string out of memory. -/
def asStr : Val → String
  | .vstr s => s
  | _ => ""

/-- null literal bytes (sliceencoder.go var null). -/
def nullBytes : List Nat := strBytes ("null")

/-- "true" literal bytes (ptrconvert.go var btrue). -/
def btrue : List Nat := strBytes ("true")

/-- "false" literal bytes (ptrconvert.go var bfalse). -/
def bfalse : List Nat := strBytes ("false")

/-- "\x7b\x7d" literal bytes (mapencoder.go var emptyObj). -/
def emptyObj : List Nat := strBytes ("\x7b\x7d")

/-- ptrBoolToBuf from ptrconvert.go, verbatim: when the value is true it
writes "true" and then FALLS THROUGH (the source has no return there), so
it also writes "false". -/
def ptrBoolToBuf (v : Val) (b : Buffer) : Buffer :=
  let b := if asBool v then b ++ btrue else b
  b ++ bfalse

/-- ptrIntToBuf and its fixed-width siblings: strconv.AppendInt base 10. -/
def ptrIntToBuf (v : Val) (b : Buffer) : Buffer :=
  b ++ strBytes (toString (asInt v))

/-- ptrUintToBuf and its fixed-width siblings: strconv.AppendUint base 10. -/
def ptrUintToBuf (v : Val) (b : Buffer) : Buffer :=
  b ++ strBytes (toString (asUint v))

/-- ptrStringToBuf: writes the string's bytes, unquoted. -/
def ptrStringToBuf (v : Val) (b : Buffer) : Buffer :=
  b ++ strBytes (asStr v)

/-- The typeconv dispatch table of ptrconvert.go, keyed by kind.
(Float entries exist in the source; floating point is outside the
modelled universe.) -/
def typeconv : Ty → Option (Val → Buffer → Buffer)
  | .bool => some ptrBoolToBuf
  | .int => some ptrIntToBuf
  | .int8 => some ptrIntToBuf
  | .int16 => some ptrIntToBuf
  | .int32 => some ptrIntToBuf
  | .int64 => some ptrIntToBuf
  | .uint => some ptrUintToBuf
  | .uint8 => some ptrUintToBuf
  | .uint16 => some ptrUintToBuf
  | .uint32 => some ptrUintToBuf
  | .uint64 => some ptrUintToBuf
  | .string => some ptrStringToBuf
  | _ => none

/-- tagOptions from structencoder.go. -/
def tagOptions := String

/-- parseTag: split a json tag at the first comma. -/
def parseTag (tag : String) : String × tagOptions :=
  match tag.toList.splitOn ',' with
  | [] => ("", "")
  | t :: rest =>
      (String.mk t,
       if rest.isEmpty then "" else String.mk (List.intercalate [','] rest))

/-- tagOptions.Contains: whether a comma-separated option list holds the
given flag as a whole segment. -/
def tagOptions.Contains (o : tagOptions) (optionName : String) : Bool :=
  let s : String := o
  if s.isEmpty then false
  else (s.toList.splitOn ',').any (fun seg => String.mk seg = optionName)

/-- reflect MethodByName "String" yields Invalid for every shape in the
modelled universe (none declares methods), so the stringer capability test
in the compile loop is always false here. -/
def hasStringMethod (_ : Ty) : Bool := false

/-- Kind test mirroring reflect.Kind equality with reflect.String. -/
def isStringKind : Ty → Bool
  | .string => true
  | _ => false

/-- The kind valueInst dispatches on: a pointer field's pointee kind,
otherwise the field's own kind. -/
def derefKind : Ty → Ty
  | .ptr inner => inner
  | t => t

theorem derefKind_sizeOf_le (t : Ty) : sizeOf (derefKind t) ≤ sizeOf t := by
  cases t <;> simp [derefKind]

/-- One compiled instruction: reads the value, appends to the buffer.
A `none` result models a runtime fault (e.g. invoking a nil instruction
of a nested slice encoder). -/
abbrev Instr := Val → Buffer → Option Buffer

/-- StructEncoder.Marshal: execute the instruction list in order. -/
def structMarshal (instrs : List Instr) (v : Val) (w : Buffer) : Option Buffer :=
  instrs.foldl (fun ob i => ob.bind (fun b => i v b)) (some w)

/-- SliceEncoder.Marshal: call the single instruction; a nil instruction
(left unset by otherInstr / ptrOtherInstr) faults. -/
def sliceMarshal (enc : Option Instr) (v : Val) (w : Buffer) : Option Buffer :=
  match enc with
  | none => none
  | some i => i v w

/-- Field access: base address plus the field's offset, modelled as an
index into the struct's field-value list. -/
def getField (v : Val) (i : Nat) : Val :=
  match v with
  | .vstruct vs => vs.getD i .other
  | _ => .other

/-- StructEncoder compile state: the instruction list, the side chunk
buffer cb, the flushed position cpos, the emitted-field count and the
current field index e.i. -/
structure CState where
  instrs : List Instr
  cb : Buffer
  cpos : Nat
  emit : Nat
  idx : Nat

/-- StructEncoder.chunk: append static body text to the side buffer. -/
def chunk (st : CState) (b : String) : CState :=
  { st with cb := st.cb ++ strBytes b }

/-- StructEncoder.flunk: flush buffered chunk data into one static
instruction (none when nothing is pending). -/
def flunk (st : CState) : CState :=
  let bs := st.cb.drop st.cpos
  { st with
    cpos := st.cb.length,
    instrs := st.instrs ++
      (if bs.isEmpty then [] else [fun _ w => some (w ++ bs)]) }

/-- StructEncoder.val: flush chunks, then append an instruction applying
a total conversion at the current field. -/
def val (st : CState) (conv : Val → Buffer → Buffer) : CState :=
  let st := flunk st
  let i := st.idx
  { st with instrs := st.instrs ++ [fun v w => some (conv (getField v i) w)] }

/-- StructEncoder.ptrval: like val but nil pointers write null and the
conversion runs on the pointee. -/
def ptrval (st : CState) (conv : Val → Buffer → Buffer) : CState :=
  let st := flunk st
  let i := st.idx
  { st with instrs := st.instrs ++
      [fun v w =>
        match getField v i with
        | .vptr none => some (w ++ nullBytes)
        | .vptr (some p) => some (conv p w)
        | _ => none] }

/-- StructEncoder.ptrstringval: nil writes null, otherwise the quotes are
written at run time around the conversion. -/
def ptrstringval (st : CState) (conv : Val → Buffer → Buffer) : CState :=
  let st := flunk st
  let i := st.idx
  { st with instrs := st.instrs ++
      [fun v w =>
        match getField v i with
        | .vptr none => some (w ++ nullBytes)
        | .vptr (some p) => some (conv p (w ++ [34]) ++ [34])
        | _ => none] }

/-- The conversion installed for the encoder option: modelled shapes do
not implement JSONEncoder, so the runtime type assertion fails and null
is written. -/
def encoderConv : Val → Buffer → Buffer :=
  fun _ w => w ++ nullBytes

/-- The conversion installed for the raw option: reinterpret the field
memory as a byte slice, write null when empty, the bytes verbatim
otherwise.  Only string and byte-slice shaped memory is representable. -/
def valBytes : Val → List Nat
  | .vstr s => strBytes s
  | .vslice es => es.map asUint
  | _ => []

/-- rawConv, the closure built for the raw option in the compile loop. -/
def rawConv : Val → Buffer → Buffer :=
  fun v w =>
    let s := valBytes v
    if s.isEmpty then w ++ nullBytes else w ++ s

/-- The slice-element loop shared by sliceInstr / structInstr / mapInstr:
commas between elements, the per-element encoder in between. -/
def emitElems (m : Val → Buffer → Option Buffer) :
    List Val → Bool → Buffer → Option Buffer
  | [], _, w => some w
  | ev :: rest, first, w =>
      let w := if first then w else w ++ [44]
      match m ev w with
      | none => none
      | some w2 => emitElems m rest false w2

/-- Wrap the element loop in brackets over a slice value. -/
def sliceLoopInstr (m : Val → Buffer → Option Buffer) : Instr :=
  fun v w =>
    match v with
    | .vslice es => (emitElems m es true (w ++ [91])).map (fun b => b ++ [93])
    | _ => none

/-- The per-element body of the ptrSliceInstr / ptrStrctInstr /
ptrMapInstr / ptrOtherInstr loops: nil writes null, otherwise the element
encoder runs on the pointee. -/
def ptrElemConv (m : Val → Buffer → Option Buffer) : Val → Buffer → Option Buffer :=
  fun ev w =>
    match ev with
    | .vptr none => some (w ++ nullBytes)
    | .vptr (some p) => m p w
    | _ => none

/-- stringInstr's loop from sliceencoder.go, with its index-based quote
placement (opening quote at i = 0, a quote-comma-quote separator for
i > 0, closing quote at the last index). -/
def stringElems : List Val → Nat → Nat → Buffer → Buffer
  | [], _, _, w => w
  | ev :: rest, i, len, w =>
      let w := if i == 0 then w ++ [34] else w
      let w := if i > 0 then w ++ strBytes ("\",\"") else w
      let w := ptrStringToBuf ev w
      let w := if i == len - 1 then w ++ [34] else w
      stringElems rest (i + 1) len w

/-- stringInstr: slices of plain text. -/
def stringInstrSlice : Instr :=
  fun v w =>
    match v with
    | .vslice es => some (stringElems es 0 es.length (w ++ [91]) ++ [93])
    | _ => none

/-- ptrStringInstr elements: nil writes null, otherwise quoted text. -/
def ptrStringConv : Val → Buffer → Option Buffer :=
  fun ev w =>
    match ev with
    | .vptr none => some (w ++ nullBytes)
    | .vptr (some p) => some (ptrStringToBuf p (w ++ [34]) ++ [34])
    | _ => none

namespace MapEncoder

/-- ptrStrElemInstr from mapencoder.go. -/
def ptrStrElemInstr : Instr :=
  fun v w =>
    match v with
    | .vptr none => some (w ++ nullBytes)
    | .vptr (some p) => some (ptrStringToBuf p (w ++ [34]) ++ [34])
    | _ => none

/-- ptrElemInstr from mapencoder.go. -/
def ptrElemInstr (conv : Val → Buffer → Option Buffer) : Instr :=
  fun v w =>
    match v with
    | .vptr none => some (w ++ nullBytes)
    | .vptr (some p) => conv p w
    | _ => none

/-- The entry loop of the unsorted generic instruction: separator
comma-quote, rendered key, quote-colon, element encoder. -/
def emitEntries (kconv : Val → Buffer → Buffer) (econv : Instr) :
    List (Val × Val) → Bool → Buffer → Option Buffer
  | [], _, w => some w
  | kv :: rest, first, w =>
      let w := if first then w else w ++ strBytes (",\"")
      let w := kconv kv.1 w
      let w := w ++ strBytes ("\":")
      match econv kv.2 w with
      | none => none
      | some w2 => emitEntries kconv econv rest false w2

/-- instr from mapencoder.go (unordered generic mode). -/
def instr (kconv : Val → Buffer → Buffer) (econv : Instr) : Instr :=
  fun v w =>
    match v with
    | .vmap none => some (w ++ nullBytes)
    | .vmap (some entries) =>
        if entries.length == 0 then some (w ++ emptyObj)
        else
          (emitEntries kconv econv entries true (w ++ strBytes ("\x7b\""))).map
            (fun b => b ++ [125])
    | _ => none

/-- The record order used by sort.Sort via mapSlice.Less: byte-wise
lexicographic comparison of the rendered key text. -/
def keLe (a b : Buffer × Val) : Prop := lexLe a.1 b.1 = true

instance : DecidableRel keLe := fun a b => decEq (lexLe a.1 b.1) true

/-- The emission loop of the sorted generic instruction: separator
comma-quote, recorded key span, quote-colon, element encoder run lazily. -/
def emitSorted (econv : Instr) :
    List (Buffer × Val) → Bool → Buffer → Option Buffer
  | [], _, w => some w
  | r :: rest, first, w =>
      let w := if first then w else w ++ strBytes (",\"")
      let w := w ++ r.1
      let w := w ++ strBytes ("\":")
      match econv r.2 w with
      | none => none
      | some w2 => emitSorted econv rest false w2

/-- sortInstr from mapencoder.go (ordered generic mode).  The first pass
renders each key into the working buffer and records its span (modelled
as the rendered bytes) with the value address; the records are sorted by
rendered key text; the second pass emits the object; finally the
first-pass key bytes are spliced out of the buffer.  Go's sort.Sort is an
unstable sort satisfying the Less order; it is modelled by insertion
sort, which agrees whenever the rendered keys are pairwise distinct. -/
def sortInstr (kconv : Val → Buffer → Buffer) (econv : Instr) : Instr :=
  fun v w =>
    match v with
    | .vmap none => some (w ++ nullBytes)
    | .vmap (some entries) =>
        if entries.length == 0 then some (w ++ emptyObj)
        else
          let bufStart := w.length
          let acc := entries.foldl
            (fun (a : Buffer × List (Buffer × Val)) kv =>
              let start := a.1.length
              let w2 := kconv kv.1 a.1
              (w2, a.2 ++ [(w2.drop start, kv.2)]))
            (w, [])
          let w1 := acc.1
          let bufEnd := w1.length
          let sorted := List.insertionSort keLe acc.2
          match emitSorted econv sorted true (w1 ++ strBytes ("\x7b\"")) with
          | none => none
          | some w3 => some ((w3.take bufStart ++ w3.drop bufEnd) ++ [125])
    | _ => none

/-- The entry loop of the string-to-string fast path (unsorted). -/
def strStrEntries : List (Val × Val) → Bool → Buffer → Buffer
  | [], _, w => w
  | kv :: rest, first, w =>
      let w := if first then w else w ++ strBytes ("\",\"")
      let w := ptrStringToBuf kv.1 w
      let w := w ++ strBytes ("\":\"")
      let w := ptrStringToBuf kv.2 w
      strStrEntries rest false w

/-- strStrInstr from mapencoder.go (unordered string-to-string fast
path). -/
def strStrInstr : Instr :=
  fun v w =>
    match v with
    | .vmap none => some (w ++ nullBytes)
    | .vmap (some entries) =>
        if entries.length == 0 then some (w ++ emptyObj)
        else
          some (strStrEntries entries true (w ++ strBytes ("\x7b\""))
                  ++ strBytes ("\"\x7d"))
    | _ => none

/-- The emission loop of the sorted string-to-string fast path. -/
def sortStrStrEmit : List (Buffer × Val) → Bool → Buffer → Buffer
  | [], _, w => w
  | r :: rest, first, w =>
      let w := if first then w else w ++ strBytes ("\",\"")
      let w := w ++ r.1
      let w := w ++ strBytes ("\":\"")
      let w := ptrStringToBuf r.2 w
      sortStrStrEmit rest false w

/-- sortStrStrInstr from mapencoder.go (ordered string-to-string fast
path): collect (key bytes, value address) records directly from the
iterator, sort by key bytes, then emit. -/
def sortStrStrInstr : Instr :=
  fun v w =>
    match v with
    | .vmap none => some (w ++ nullBytes)
    | .vmap (some entries) =>
        if entries.length == 0 then some (w ++ emptyObj)
        else
          let recs := entries.map (fun kv => (strBytes (asStr kv.1), kv.2))
          let sorted := List.insertionSort keLe recs
          some (sortStrStrEmit sorted true (w ++ strBytes ("\x7b\""))
                  ++ strBytes ("\"\x7d"))
    | _ => none

end MapEncoder

mutual

/-- NewStructEncoderWithConfig from structencoder.go: open an object,
walk the fields building instructions, close the object.  A panic during
construction is an error result. -/
def NewStructEncoderWithConfig (fields : List (String × String × Ty))
    (cfg : Config) : Except String (List Instr) := do
  let st0 : CState := { instrs := [], cb := [], cpos := 0, emit := 0, idx := 0 }
  let st0 := chunk st0 ("\x7b")
  let st ← structFields cfg fields st0
  let st := chunk st ("\x7d")
  let st := flunk st
  .ok st.instrs
termination_by 6 * sizeOf fields + 1

/-- The per-field compile loop of NewStructEncoderWithConfig.  Fields
whose tag name is empty are skipped entirely; otherwise the key chunk is
written (comma-separated after the first emitted field) and the value
instruction chosen by option and kind. -/
def structFields (cfg : Config) (fields : List (String × String × Ty))
    (st : CState) : Except String CState :=
  match fields with
  | [] => .ok st
  | (fname, ftag, fty) :: rest => do
      let st2 ←
        (let tp := parseTag ftag
         let tag := tp.1
         let opts := tp.2
         if tag = "" then .ok st
         else
           let st := { st with emit := st.emit + 1 }
           let st := if st.emit > 1 then chunk st (",") else st
           let st := chunk st ("\"" ++ tag ++ "\":")
           if opts.Contains ("stringer") && hasStringMethod fty then
             -- dead in the modelled universe: no shape has a String method
             let st := chunk st ("\"")
             let st := match fty with
                       | .ptr _ => ptrval st (fun _ w => w)
                       | _ => val st (fun _ w => w)
             .ok (chunk st ("\""))
           else if opts.Contains ("encoder") then
             .ok (match fty with
                  | .ptr _ => ptrval st encoderConv
                  | _ => val st encoderConv)
           else if opts.Contains ("raw") then
             .ok (match fty with
                  | .ptr _ => ptrval st rawConv
                  | _ => val st rawConv)
           else
             valueInst cfg fty (derefKind fty) fname st)
      structFields cfg rest { st2 with idx := st2.idx + 1 }
termination_by 6 * sizeOf fields
decreasing_by
  all_goals simp_wf
  all_goals (try have h := derefKind_sizeOf_le fty)
  all_goals omega

/-- valueInst from structencoder.go: pick the value instruction for kind
k (the field's kind, or its pointee kind for pointer fields). -/
def valueInst (cfg : Config) (fty k : Ty) (fname : String) (st : CState) :
    Except String CState :=
  match k with
  | .bool | .int | .int8 | .int16 | .int32 | .int64
  | .uint | .uint8 | .uint16 | .uint32 | .uint64 =>
      match typeconv k with
      | none => .ok st
      | some conv =>
          .ok (match fty with
               | .ptr _ => ptrval st conv
               | _ => val st conv)
  | .slice e =>
      let st := flunk st
      (match fty with
       | .ptr _ =>
           -- A pointer-to-slice field: the source builds a slice encoder
           -- from the pointer type and reads the pointer cell as a slice
           -- header.  That memory reinterpretation is not representable
           -- here and is modelled as a faulting instruction; the shape
           -- is outside the supported universe.
           .ok { st with instrs := st.instrs ++ [fun _ _ => none] }
       | _ => do
           let enc ← NewSliceEncoderWithConfig e cfg
           let i := st.idx
           .ok { st with instrs := st.instrs ++
                 [fun v w => sliceMarshal enc (getField v i) w] })
  | .string =>
      (match fty with
       | .ptr _ => .ok (ptrstringval st ptrStringToBuf)
       | _ =>
           let st := chunk st ("\"")
           let st := val st ptrStringToBuf
           .ok (chunk st ("\"")))
  | .struct fs =>
      let st := flunk st
      let i := st.idx
      (match fty with
       | .ptr _ => do
           let enc ← NewStructEncoderWithConfig fs cfg
           .ok { st with instrs := st.instrs ++
                 [fun v w =>
                   match getField v i with
                   | .vptr none => some (w ++ nullBytes)
                   | .vptr (some p) => structMarshal enc p w
                   | _ => none] }
       | _ => do
           let enc ← NewStructEncoderWithConfig fs cfg
           .ok { st with instrs := st.instrs ++
                 [fun v w => structMarshal enc (getField v i) w] })
  | .map mk me =>
      let st := flunk st
      let i := st.idx
      (match fty with
       | .ptr _ => do
           let enc ← NewMapEncoderWithConfig mk me cfg
           .ok { st with instrs := st.instrs ++
                 [fun v w =>
                   match getField v i with
                   | .vptr none => some (w ++ nullBytes)
                   | .vptr (some p) => enc p w
                   | _ => none] }
       | _ => do
           let enc ← NewMapEncoderWithConfig mk me cfg
           .ok { st with instrs := st.instrs ++
                 [fun v w => enc (getField v i) w] })
  | .chan | .func | .complex64 | .complex128 =>
      -- the panic list of valueInst (fmt.Sprint pads no space between a
      -- non-string and a following string operand)
      .error ("unsupported type " ++ kindName k ++ fname)
  | .ptr _ =>
      -- no switch case matches a doubly-indirect field: no instruction
      -- is emitted for it (outside the supported universe)
      .ok st
termination_by 6 * sizeOf k

/-- NewSliceEncoderWithConfig from sliceencoder.go: choose the single
iterating instruction by element kind.  For an element kind without a
conversion entry the instruction is left nil (modelled as a `none`
payload): construction still succeeds. -/
def NewSliceEncoderWithConfig (elem : Ty) (cfg : Config) :
    Except String (Option Instr) :=
  match elem with
  | .slice e2 => do
      let enc ← NewSliceEncoderWithConfig e2 cfg
      .ok (some (sliceLoopInstr (fun ev w => sliceMarshal enc ev w)))
  | .struct fs => do
      let enc ← NewStructEncoderWithConfig fs cfg
      .ok (some (sliceLoopInstr (fun ev w => structMarshal enc ev w)))
  | .map mk me => do
      let enc ← NewMapEncoderWithConfig mk me cfg
      .ok (some (sliceLoopInstr enc))
  | .string => .ok (some stringInstrSlice)
  | .ptr inner =>
      (match inner with
       | .slice e2 => do
           let enc ← NewSliceEncoderWithConfig e2 cfg
           .ok (some (sliceLoopInstr (ptrElemConv (fun ev w => sliceMarshal enc ev w))))
       | .struct fs => do
           let enc ← NewStructEncoderWithConfig fs cfg
           .ok (some (sliceLoopInstr (ptrElemConv (fun ev w => structMarshal enc ev w))))
       | .map mk me => do
           let enc ← NewMapEncoderWithConfig mk me cfg
           .ok (some (sliceLoopInstr (ptrElemConv enc)))
       | .string => .ok (some (sliceLoopInstr ptrStringConv))
       | k2 =>
           match typeconv k2 with
           | none => .ok none
           | some conv =>
               .ok (some (sliceLoopInstr (ptrElemConv (fun p w => some (conv p w))))))
  | k2 =>
      match typeconv k2 with
      | none => .ok none
      | some conv => .ok (some (sliceLoopInstr (fun ev w => some (conv ev w))))
termination_by 6 * sizeOf elem + 1

/-- NewMapEncoderWithConfig from mapencoder.go: a string-to-string fast
path, otherwise resolve the element and key conversions once and select
the sorted or unsorted generic instruction.  (The TextMarshaler branches
are absent: no modelled shape implements it.) -/
def NewMapEncoderWithConfig (key elem : Ty) (cfg : Config) :
    Except String Instr :=
  if isStringKind key && isStringKind elem then
    .ok (if cfg.SortMapKeys then MapEncoder.sortStrStrInstr
         else MapEncoder.strStrInstr)
  else do
      let econv : Instr ←
        (match elem with
         | .slice e2 => do
             let enc ← NewSliceEncoderWithConfig e2 cfg
             .ok (fun v w => sliceMarshal enc v w)
         | .struct fs => do
             let enc ← NewStructEncoderWithConfig fs cfg
             .ok (fun v w => structMarshal enc v w)
         | .map mk2 me2 => NewMapEncoderWithConfig mk2 me2 cfg
         | .ptr inner =>
             (match inner with
              | .slice e2 => do
                  let enc ← NewSliceEncoderWithConfig e2 cfg
                  .ok (MapEncoder.ptrElemInstr (fun v w => sliceMarshal enc v w))
              | .struct fs => do
                  let enc ← NewStructEncoderWithConfig fs cfg
                  .ok (MapEncoder.ptrElemInstr (fun v w => structMarshal enc v w))
              | .map mk2 me2 => do
                  let enc ← NewMapEncoderWithConfig mk2 me2 cfg
                  .ok (MapEncoder.ptrElemInstr enc)
              | .string => .ok MapEncoder.ptrStrElemInstr
              | k2 =>
                  match typeconv k2 with
                  | some conv =>
                      .ok (MapEncoder.ptrElemInstr (fun p w => some (conv p w)))
                  | none => .error ("unsupported ptr elem type"))
         | .string =>
             .ok (fun v w => some (ptrStringToBuf v (w ++ [34]) ++ [34]))
         | k2 =>
             match typeconv k2 with
             | some conv => .ok (fun v w => some (conv v w))
             | none => .error ("unsupported elem type"))
      let kconv : Val → Buffer → Buffer ←
        (match typeconv key with
         | some c => .ok c
         | none => .error ("unsupported key type"))
      .ok (if cfg.SortMapKeys then MapEncoder.sortInstr kconv econv
           else MapEncoder.instr kconv econv)
termination_by 6 * (sizeOf key + sizeOf elem) + 1

end

/-! ### Shape conformance and the supported universe -/

mutual

/-- A value lies in a shape's memory layout. -/
def conforms : Val → Ty → Bool
  | .vbool _, .bool => true
  | .vint _, .int => true
  | .vint _, .int8 => true
  | .vint _, .int16 => true
  | .vint _, .int32 => true
  | .vint _, .int64 => true
  | .vuint _, .uint => true
  | .vuint _, .uint8 => true
  | .vuint _, .uint16 => true
  | .vuint _, .uint32 => true
  | .vuint _, .uint64 => true
  | .vstr _, .string => true
  | .vptr none, .ptr _ => true
  | .vptr (some p), .ptr t => conforms p t
  | .vslice es, .slice t => conformsList es t
  | .vstruct vs, .struct fs => conformsFields vs fs
  | .vmap none, .map _ _ => true
  | .vmap (some entries), .map k e => conformsEntries entries k e
  | .other, .chan => true
  | .other, .func => true
  | .other, .complex64 => true
  | .other, .complex128 => true
  | _, _ => false
termination_by v _ => sizeOf v

/-- All elements conform to the element shape. -/
def conformsList : List Val → Ty → Bool
  | [], _ => true
  | v :: vs, t => conforms v t && conformsList vs t
termination_by vs _ => sizeOf vs

/-- Struct values carry one conforming value per declared field. -/
def conformsFields : List Val → List (String × String × Ty) → Bool
  | [], [] => true
  | v :: vs, f :: fs => conforms v f.2.2 && conformsFields vs fs
  | _, _ => false
termination_by vs _ => sizeOf vs

/-- All map entries conform to the key and element shapes. -/
def conformsEntries : List (Val × Val) → Ty → Ty → Bool
  | [], _, _ => true
  | (kv, ev) :: rest, k, e =>
      conforms kv k && conforms ev e && conformsEntries rest k e
termination_by l _ _ => sizeOf l

end

/-- Map keys must have a conversion entry (primitive or text kinds). -/
def supportedKey (k : Ty) : Bool := (typeconv k).isSome

/-- Shapes usable under the raw option: byte-slice-like memory. -/
def rawOK : Ty → Bool
  | .string => true
  | .slice .uint8 => true
  | .ptr .string => true
  | .ptr (.slice .uint8) => true
  | _ => false

mutual

/-- The fully supported shapes: every reachable kind has a working
instruction, so compilation succeeds and Marshal is total on conforming
values.  Pointer-to-slice is allowed as a sequence or mapping element
(where the encoders dereference it) but excluded as a struct field
(where the source misreads the pointer cell); see supportedField. -/
def supportedTy : Ty → Bool
  | .ptr t => supportedPtrInner t
  | .slice e => supportedTy e
  | .map k e => supportedKey k && supportedTy e
  | .struct fs => supportedFields fs
  | .chan => false
  | .func => false
  | .complex64 => false
  | .complex128 => false
  | _ => true
termination_by t => sizeOf t

/-- Supported pointee shapes for one level of indirection. -/
def supportedPtrInner : Ty → Bool
  | .struct fs => supportedFields fs
  | .map k e => supportedKey k && supportedTy e
  | .slice e => supportedTy e
  | .ptr _ => false
  | .chan => false
  | .func => false
  | .complex64 => false
  | .complex128 => false
  | _ => true
termination_by t => sizeOf t

/-- All fields support compilation and execution. -/
def supportedFields : List (String × String × Ty) → Bool
  | [] => true
  | f :: fs => supportedField f && supportedFields fs
termination_by fs => sizeOf fs

/-- One struct field is supported: skipped fields always are; encoder
fields always are (the conversion falls back to null); raw fields need
byte-slice-like memory; otherwise the field's shape must be fully
supported and not a pointer-to-slice (misread) nor handled by no switch
case (pointer-to-pointer, excluded by supportedPtrInner already). -/
def supportedField : (String × String × Ty) → Bool
  | (_, ftag, fty) =>
      let tp := parseTag ftag
      if tp.1 = "" then true
      else if tp.2.Contains ("encoder") then true
      else if tp.2.Contains ("raw") then rawOK fty
      else structFieldTySupported fty
termination_by f => sizeOf f

/-- A field shape outside the misread pointer-to-slice case must be
fully supported. -/
def structFieldTySupported : Ty → Bool
  | .ptr (.slice _) => false
  | t => supportedTy t
termination_by t => sizeOf t + 1

end

/-! ### The declarative byte-level rendering the encoders are proven to
produce.  Nested aggregates defer to the operational output of the
corresponding compiled encoder (encOutput), so each definition describes
exactly one structural layer. -/

/-- The bytes a conversion-table entry appends. -/
def primOut (k : Ty) (v : Val) : List Nat :=
  match typeconv k with
  | some conv => conv v []
  | none => []

/-- Compile a struct shape and run its Marshal. -/
def structEncode (fields : List (String × String × Ty)) (cfg : Config)
    (v : Val) (w : Buffer) : Option Buffer :=
  match NewStructEncoderWithConfig fields cfg with
  | .ok is => structMarshal is v w
  | .error _ => none

/-- Compile a slice shape and run its Marshal. -/
def sliceEncode (elem : Ty) (cfg : Config) (v : Val) (w : Buffer) :
    Option Buffer :=
  match NewSliceEncoderWithConfig elem cfg with
  | .ok enc => sliceMarshal enc v w
  | .error _ => none

/-- Compile a map shape and run its Marshal. -/
def mapEncode (key elem : Ty) (cfg : Config) (v : Val) (w : Buffer) :
    Option Buffer :=
  match NewMapEncoderWithConfig key elem cfg with
  | .ok i => i v w
  | .error _ => none

/-- The bytes the compiled encoder for a shape appends to an empty
buffer.  (The master theorem below shows every Marshal appends exactly
these bytes to any buffer.) -/
def encOutput (t : Ty) (cfg : Config) (v : Val) : List Nat :=
  match t with
  | .struct fs => (structEncode fs cfg v []).getD []
  | .slice e => (sliceEncode e cfg v []).getD []
  | .map k e => (mapEncode k e cfg v []).getD []
  | k => primOut k v

/-- Quoted text bytes. -/
def quotedStr (v : Val) : List Nat := [34] ++ strBytes (asStr v) ++ [34]

/-- The bytes one sequence or mapping element contributes (shared by the
slice element loops and the map element conversions, which dispatch the
same way). -/
def elemOut (cfg : Config) (e : Ty) (ev : Val) : List Nat :=
  match e with
  | .string => quotedStr ev
  | .slice _ => encOutput e cfg ev
  | .struct _ => encOutput e cfg ev
  | .map _ _ => encOutput e cfg ev
  | .ptr inner =>
      (match ev with
       | .vptr none => nullBytes
       | .vptr (some p) =>
           (match inner with
            | .string => quotedStr p
            | .slice _ => encOutput inner cfg p
            | .struct _ => encOutput inner cfg p
            | .map _ _ => encOutput inner cfg p
            | k2 => primOut k2 p)
       | _ => [])
  | k2 => primOut k2 ev

/-- Member bytes under the (dead) stringer option. -/
def stringerFieldOut (fty : Ty) (v : Val) : List Nat :=
  match fty, v with
  | .ptr _, .vptr none => [34] ++ nullBytes ++ [34]
  | _, _ => [34, 34]

/-- Member bytes under the encoder option. -/
def encoderFieldOut (fty : Ty) (v : Val) : List Nat :=
  match fty, v with
  | .ptr _, .vptr none => nullBytes
  | .ptr _, .vptr (some p) => encoderConv p []
  | .ptr _, _ => []
  | _, _ => encoderConv v []

/-- Member bytes under the raw option. -/
def rawFieldOut (fty : Ty) (v : Val) : List Nat :=
  match fty, v with
  | .ptr _, .vptr none => nullBytes
  | .ptr _, .vptr (some p) => rawConv p []
  | .ptr _, _ => []
  | _, _ => rawConv v []

/-- Member bytes on the default kind-dispatch path. -/
def defaultFieldOut (cfg : Config) (fty : Ty) (v : Val) : List Nat :=
  match fty with
  | .string => quotedStr v
  | .ptr .string =>
      (match v with
       | .vptr none => nullBytes
       | .vptr (some p) => quotedStr p
       | _ => [])
  | .ptr (.struct fs) =>
      (match v with
       | .vptr none => nullBytes
       | .vptr (some p) => encOutput (.struct fs) cfg p
       | _ => [])
  | .ptr (.map mk me) =>
      (match v with
       | .vptr none => nullBytes
       | .vptr (some p) => encOutput (.map mk me) cfg p
       | _ => [])
  | .ptr (.slice _) => []
  | .ptr (.ptr _) => []
  | .ptr k2 =>
      (match v with
       | .vptr none => nullBytes
       | .vptr (some p) => primOut k2 p
       | _ => [])
  | .slice e => encOutput (.slice e) cfg v
  | .struct fs => encOutput (.struct fs) cfg v
  | .map mk me => encOutput (.map mk me) cfg v
  | k2 => primOut k2 v

/-- The bytes one struct member's value contributes, following the
option and kind dispatch of the compile loop. -/
def fieldOut (cfg : Config) (opts : tagOptions) (fty : Ty) (v : Val) :
    List Nat :=
  match opts.Contains ("stringer") && hasStringMethod fty,
        opts.Contains ("encoder"), opts.Contains ("raw") with
  | true, _, _ => stringerFieldOut fty v
  | false, true, _ => encoderFieldOut fty v
  | false, false, true => rawFieldOut fty v
  | false, false, false => defaultFieldOut cfg fty v

/-- The member list a struct value renders to: exactly the fields whose
parsed tag name is non-empty, in declaration order, paired with their
value bytes. -/
def memberList (cfg : Config) (fields : List (String × String × Ty))
    (vs : List Val) : List (String × List Nat) :=
  (fields.zip vs).filterMap (fun fv =>
    let tp := parseTag fv.1.2.1
    if tp.1 = "" then none
    else some (tp.1, fieldOut cfg tp.2 fv.1.2.2 fv.2))

/-- Flattened member text: a comma before every member after the first
(the emit counter of the compile loop), then quote, key, quote-colon,
value bytes. -/
def membersFlat (emit : Nat) : List (String × List Nat) → List Nat
  | [] => []
  | m :: rest =>
      (if emit + 1 > 1 then [44] else []) ++
        ([34] ++ strBytes m.1 ++ strBytes ("\":")) ++ m.2 ++
        membersFlat (emit + 1) rest

/-- A JSON object: open brace, members, close brace. -/
def jsonObjBytes (ms : List (String × List Nat)) : List Nat :=
  [123] ++ membersFlat 0 ms ++ [125]

/-- Flattened sequence elements: comma-separated. -/
def elemsFlat (first : Bool) : List (List Nat) → List Nat
  | [] => []
  | b :: rest => (if first then [] else [44]) ++ b ++ elemsFlat false rest

/-- The bytes a slice value renders to: brackets around its
comma-separated element outputs. -/
def sliceOutBytes (cfg : Config) (e : Ty) (es : List Val) : List Nat :=
  [91] ++ elemsFlat true (es.map (elemOut cfg e)) ++ [93]

/-- Flattened map entries in emission order: comma before every entry
after the first, quote, rendered key bytes, quote-colon, element
bytes. -/
def mapMembersFlat (cfg : Config) (e : Ty) (first : Bool) :
    List (Buffer × Val) → List Nat
  | [] => []
  | r :: rest =>
      (if first then [] else [44]) ++ [34] ++ r.1 ++ strBytes ("\":") ++
        elemOut cfg e r.2 ++ mapMembersFlat cfg e false rest

/-- The bytes a map value renders to: null when nil, braces when empty,
otherwise the object over (rendered key, value) records — sorted by
byte-wise lexicographic key text in ordered mode, in native iteration
order otherwise. -/
def mapOutBytes (cfg : Config) (k e : Ty) (o : Option (List (Val × Val))) :
    List Nat :=
  match o with
  | none => nullBytes
  | some entries =>
      if entries.length = 0 then emptyObj
      else
        let recs := entries.map (fun kv => (primOut k kv.1, kv.2))
        let recs :=
          if cfg.SortMapKeys then List.insertionSort MapEncoder.keLe recs
          else recs
        [123] ++ mapMembersFlat cfg e true recs ++ [125]

/-! ### Locality of the primitive conversions -/

theorem ptrBoolToBuf_local (v : Val) (w : Buffer) :
    ptrBoolToBuf v w = w ++ ptrBoolToBuf v [] := by
  unfold ptrBoolToBuf
  cases asBool v <;> simp

theorem ptrIntToBuf_local (v : Val) (w : Buffer) :
    ptrIntToBuf v w = w ++ ptrIntToBuf v [] := by
  simp [ptrIntToBuf]

theorem ptrUintToBuf_local (v : Val) (w : Buffer) :
    ptrUintToBuf v w = w ++ ptrUintToBuf v [] := by
  simp [ptrUintToBuf]

theorem ptrStringToBuf_local (v : Val) (w : Buffer) :
    ptrStringToBuf v w = w ++ ptrStringToBuf v [] := by
  simp [ptrStringToBuf]

/-- Every conversion-table entry only appends, and appends exactly the
primOut bytes. -/
theorem typeconv_local {k : Ty} {conv : Val → Buffer → Buffer}
    (h : typeconv k = some conv) (v : Val) (w : Buffer) :
    conv v w = w ++ primOut k v := by
  have hp : primOut k v = conv v [] := by simp [primOut, h]
  rw [hp]
  cases k <;> simp only [typeconv, Option.some.injEq] at h <;>
    first
    | exact absurd h (by simp)
    | (subst h
       first
       | exact ptrBoolToBuf_local v w
       | exact ptrIntToBuf_local v w
       | exact ptrUintToBuf_local v w
       | exact ptrStringToBuf_local v w)

/-! ### Running instruction lists -/

/-- The instruction list, run on this value, appends exactly `out` to
any buffer. -/
def RunsTo (instrs : List Instr) (v : Val) (out : List Nat) : Prop :=
  ∀ w, structMarshal instrs v w = some (w ++ out)

theorem runsTo_nil (v : Val) : RunsTo [] v [] := by
  intro w
  simp [RunsTo, structMarshal]

theorem structMarshal_none (is : List Instr) (v : Val) :
    List.foldl (fun ob i => ob.bind (fun b => i v b)) none is = none := by
  induction is with
  | nil => rfl
  | cons i is ih => simpa using ih

theorem structMarshal_cons (i : Instr) (is : List Instr) (v : Val)
    (w : Buffer) :
    structMarshal (i :: is) v w = (i v w).bind (fun b => structMarshal is v b) := by
  unfold structMarshal
  simp only [List.foldl_cons, Option.some_bind]
  cases h : i v w with
  | none => exact structMarshal_none is v
  | some b => rfl

theorem structMarshal_append (is1 is2 : List Instr) (v : Val) :
    ∀ w, structMarshal (is1 ++ is2) v w =
      (structMarshal is1 v w).bind (fun b => structMarshal is2 v b) := by
  induction is1 with
  | nil => intro w; rfl
  | cons i is ih =>
      intro w
      rw [List.cons_append, structMarshal_cons, structMarshal_cons]
      cases h : i v w with
      | none => rfl
      | some b => simp only [Option.some_bind]; exact ih b

theorem runsTo_append {is1 is2 : List Instr} {v : Val} {o1 o2 : List Nat}
    (h1 : RunsTo is1 v o1) (h2 : RunsTo is2 v o2) :
    RunsTo (is1 ++ is2) v (o1 ++ o2) := by
  intro w
  rw [structMarshal_append, h1 w]
  simp only [Option.some_bind]
  rw [h2 (w ++ o1), List.append_assoc]

theorem runsTo_single {i : Instr} {v : Val} {o : List Nat}
    (h : ∀ w, i v w = some (w ++ o)) : RunsTo [i] v o := by
  intro w
  simp [structMarshal, h w]

/-! ### The compile-state invariant: the instructions plus the pending
chunk bytes always spell out the object text produced so far. -/

/-- Invariant of the struct compile loop: cpos stays inside cb, and the
instructions' output followed by the unflushed chunk bytes equals the
pending object text. -/
def StInv (st : CState) (v : Val) (pend : List Nat) : Prop :=
  st.cpos ≤ st.cb.length ∧
  ∃ out, RunsTo st.instrs v out ∧ out ++ st.cb.drop st.cpos = pend

theorem stInv_chunk {st : CState} {v : Val} {p : List Nat} (s : String)
    (h : StInv st v p) : StInv (chunk st s) v (p ++ strBytes s) := by
  obtain ⟨hle, out, hrun, heq⟩ := h
  refine ⟨?_, out, hrun, ?_⟩
  · simp only [chunk, List.length_append]
    omega
  · simp only [chunk]
    rw [List.drop_append_of_le_length hle, ← List.append_assoc, heq]

theorem stInv_flunk {st : CState} {v : Val} {p : List Nat}
    (h : StInv st v p) :
    StInv (flunk st) v p ∧ (flunk st).cb.drop (flunk st).cpos = [] ∧
      (flunk st).idx = st.idx ∧ (flunk st).emit = st.emit := by
  obtain ⟨hle, out, hrun, heq⟩ := h
  have hdrop : (flunk st).cb.drop (flunk st).cpos = [] := by
    simp [flunk]
  refine ⟨⟨by simp [flunk], ?_⟩, hdrop, by simp [flunk], by simp [flunk]⟩
  by_cases hbs : (st.cb.drop st.cpos).isEmpty
  · refine ⟨out, ?_, ?_⟩
    · simpa [flunk, hbs] using hrun
    · rw [hdrop, ← heq, List.isEmpty_iff.mp hbs]
  · refine ⟨out ++ st.cb.drop st.cpos, ?_, ?_⟩
    · have : RunsTo [fun _ w => some (w ++ st.cb.drop st.cpos)] v
          (st.cb.drop st.cpos) := runsTo_single (fun w => rfl)
      simpa [flunk, hbs] using runsTo_append hrun this
    · rw [hdrop, heq, List.append_nil]

@[simp] theorem chunk_idx (st : CState) (s : String) :
    (chunk st s).idx = st.idx := rfl
@[simp] theorem chunk_emit (st : CState) (s : String) :
    (chunk st s).emit = st.emit := rfl
@[simp] theorem flunk_idx (st : CState) : (flunk st).idx = st.idx := rfl
@[simp] theorem flunk_emit (st : CState) : (flunk st).emit = st.emit := rfl

/-- Flushing the chunks and appending one local total instruction
extends the pending text by that instruction's output. -/
theorem stInv_addInstr {st : CState} {v : Val} {p : List Nat} {i : Instr}
    {o : List Nat} (hi : ∀ w, i v w = some (w ++ o)) (h : StInv st v p) :
    StInv { flunk st with instrs := (flunk st).instrs ++ [i] } v (p ++ o) := by
  obtain ⟨⟨hle, out, hrun, heq⟩, hdrop, _, _⟩ := stInv_flunk h
  have hout : out = p := by
    rw [hdrop, List.append_nil] at heq
    exact heq
  subst hout
  exact ⟨hle, out ++ o, runsTo_append hrun (runsTo_single hi), by
    simp [hdrop]⟩

/-! ### Byte values of the static literal strings -/

@[simp] theorem strBytes_qcq : strBytes ("\",\"") = [34, 44, 34] := rfl
@[simp] theorem strBytes_keyColon : strBytes ("\":") = [34, 58] := rfl
@[simp] theorem strBytes_cq : strBytes (",\"") = [44, 34] := rfl
@[simp] theorem strBytes_qcolq : strBytes ("\":\"") = [34, 58, 34] := rfl
@[simp] theorem strBytes_qrb : strBytes ("\"\x7d") = [34, 125] := rfl
@[simp] theorem strBytes_lb : strBytes ("\x7b") = [123] := rfl
@[simp] theorem strBytes_lbq : strBytes ("\x7b\"") = [123, 34] := rfl
@[simp] theorem strBytes_rb : strBytes ("\x7d") = [125] := rfl
@[simp] theorem strBytes_q : strBytes ("\"") = [34] := rfl
@[simp] theorem strBytes_comma : strBytes (",") = [44] := rfl
theorem emptyObj_eq : emptyObj = [123, 125] := rfl
theorem nullBytes_eq : nullBytes = [110, 117, 108, 108] := rfl

/-! ### Slice loop characterizations -/

theorem emitElems_ok {m : Val → Buffer → Option Buffer}
    {outF : Val → List Nat} :
    ∀ (es : List Val), (∀ ev ∈ es, ∀ w, m ev w = some (w ++ outF ev)) →
    ∀ (first : Bool) (w : Buffer),
      emitElems m es first w = some (w ++ elemsFlat first (es.map outF)) := by
  intro es
  induction es with
  | nil => intro _ first w; simp [emitElems, elemsFlat]
  | cons ev rest ih =>
      intro h first w
      have hev := h ev (by simp)
      have hrest := ih (fun x hx => h x (by simp [hx]))
      simp only [emitElems, List.map_cons, elemsFlat]
      cases first <;>
        simp [hev, hrest, List.append_assoc]

theorem sliceLoopInstr_ok {m : Val → Buffer → Option Buffer}
    {outF : Val → List Nat} {es : List Val}
    (h : ∀ ev ∈ es, ∀ w, m ev w = some (w ++ outF ev)) (w : Buffer) :
    sliceLoopInstr m (.vslice es) w =
      some (w ++ ([91] ++ elemsFlat true (es.map outF) ++ [93])) := by
  simp only [sliceLoopInstr]
  rw [emitElems_ok es h true (w ++ [91])]
  simp [List.append_assoc]

/-- The bytes the stringInstr loop writes for the elements after the
first: the closing quote of the previous element rides with the
separator, and the final closing quote with the last element. -/
def strTailFlat : List Val → List Nat
  | [] => []
  | x :: r =>
      strBytes ("\",\"") ++ strBytes (asStr x) ++
        (if r.isEmpty then [34] else []) ++ strTailFlat r

theorem stringElems_aux :
    ∀ (rest : List Val) (i len : Nat), 1 ≤ i → i + rest.length = len →
    ∀ w, stringElems rest i len w = w ++ strTailFlat rest := by
  intro rest
  induction rest with
  | nil => intro i len _ _ w; simp [stringElems, strTailFlat]
  | cons x r ih =>
      intro i len hi hlen w
      simp only [List.length_cons] at hlen
      have hne : (i == 0) = false := by
        simp only [beq_eq_false_iff_ne]
        omega
      have hgt : i > 0 := hi
      have hrec := ih (i + 1) len (by omega) (by omega)
      by_cases hr : r = []
      · subst hr
        have hlast : (i == len - 1) = true := by
          simp only [beq_iff_eq]
          simp only [List.length_nil] at hlen
          omega
        simp [stringElems, hne, hgt, hlast, strTailFlat, ptrStringToBuf,
          hrec, List.append_assoc]
      · have hlast : (i == len - 1) = false := by
          simp only [beq_eq_false_iff_ne]
          have : r.length ≠ 0 := by
            simpa [List.length_eq_zero] using hr
          omega
        have hre : r.isEmpty = false := by
          simpa [List.isEmpty_iff] using hr
        simp [stringElems, hne, hgt, hlast, strTailFlat, hre,
          ptrStringToBuf, hrec, List.append_assoc]

theorem strTailFlat_bridge :
    ∀ r : List Val,
      (if r.isEmpty then [34] else ([] : List Nat)) ++ strTailFlat r =
        [34] ++ elemsFlat false (r.map quotedStr) := by
  intro r
  induction r with
  | nil => simp [strTailFlat, elemsFlat]
  | cons y r2 ih =>
      simp only [List.isEmpty_cons, Bool.false_eq_true, if_false,
        List.nil_append, strTailFlat, List.map_cons, elemsFlat]
      rw [List.append_assoc (strBytes ("\",\"") ++ strBytes (asStr y))]
      rw [List.append_assoc (strBytes ("\",\""))]
      conv_lhs => rw [ih]
      simp [quotedStr, List.append_assoc]

/-- stringInstr writes brackets around comma-separated quoted text. -/
theorem stringInstr_ok (es : List Val) (w : Buffer) :
    stringInstrSlice (.vslice es) w =
      some (w ++ ([91] ++ elemsFlat true (es.map quotedStr) ++ [93])) := by
  cases es with
  | nil => simp [stringInstrSlice, stringElems, elemsFlat]
  | cons x r =>
      simp only [stringInstrSlice, Option.some.injEq]
      have haux := stringElems_aux r 1 (x :: r).length (by omega)
        (by simp [Nat.add_comm])
      have hbridge := strTailFlat_bridge r
      by_cases hr : r = []
      · subst hr
        simp [stringElems, ptrStringToBuf, quotedStr, elemsFlat,
          List.append_assoc]
      · have hlen0 : r.length ≠ 0 := by
          simpa [List.length_eq_zero] using hr
        have hre : r.isEmpty = false := by
          simpa [List.isEmpty_iff] using hr
        have haux2 := stringElems_aux r 1 (r.length + 1) (by omega) (by omega)
        rw [hre] at hbridge
        simp only [Bool.false_eq_true, if_false, List.nil_append] at hbridge
        simp [stringElems, ptrStringToBuf, haux2, quotedStr, elemsFlat,
          hbridge, List.append_assoc, hlen0]
        rw [if_neg (by omega : ¬ (0 = r.length))]
        simp [List.append_assoc]

/-! ### Map loop characterizations -/

namespace MapEncoder

theorem emitEntries_tail {kconv : Val → Buffer → Buffer} {econv : Instr}
    {kOutF : Val → List Nat} {cfg : Config} {e : Ty}
    (hk : ∀ v w, kconv v w = w ++ kOutF v) :
    ∀ (entries : List (Val × Val)),
      (∀ kv ∈ entries, ∀ w, econv kv.2 w = some (w ++ elemOut cfg e kv.2)) →
      ∀ w, emitEntries kconv econv entries false w =
        some (w ++ mapMembersFlat cfg e false
                (entries.map (fun kv => (kOutF kv.1, kv.2)))) := by
  intro entries
  induction entries with
  | nil => intro _ w; simp [emitEntries, mapMembersFlat]
  | cons kv rest ih =>
      intro he w
      have h1 := he kv (by simp)
      have h2 := ih (fun x hx => he x (by simp [hx]))
      simp [emitEntries, hk, h1, h2, mapMembersFlat, List.append_assoc]

/-- The unsorted generic map instruction writes the object over the
entries in native iteration order. -/
theorem instr_ok {kconv : Val → Buffer → Buffer} {econv : Instr}
    {kOutF : Val → List Nat} {cfg : Config} {e : Ty}
    (hk : ∀ v w, kconv v w = w ++ kOutF v)
    (entries : List (Val × Val)) (hne : entries ≠ [])
    (he : ∀ kv ∈ entries, ∀ w, econv kv.2 w = some (w ++ elemOut cfg e kv.2))
    (w : Buffer) :
    instr kconv econv (.vmap (some entries)) w =
      some (w ++ ([123] ++ mapMembersFlat cfg e true
              (entries.map (fun kv => (kOutF kv.1, kv.2))) ++ [125])) := by
  match entries, hne with
  | kv :: rest, _ =>
      have h1 := he kv (by simp)
      have h2 := emitEntries_tail hk rest
        (fun x hx => he x (by simp [hx]))
      simp only [instr, List.length_cons, emitEntries]
      rw [if_neg (by simp)]
      simp [hk, h1, h2, mapMembersFlat, List.append_assoc]

theorem emitSorted_tail {econv : Instr} {cfg : Config} {e : Ty} :
    ∀ (recs : List (Buffer × Val)),
      (∀ r ∈ recs, ∀ w, econv r.2 w = some (w ++ elemOut cfg e r.2)) →
      ∀ w, emitSorted econv recs false w =
        some (w ++ mapMembersFlat cfg e false recs) := by
  intro recs
  induction recs with
  | nil => intro _ w; simp [emitSorted, mapMembersFlat]
  | cons r rest ih =>
      intro he w
      have h1 := he r (by simp)
      have h2 := ih (fun x hx => he x (by simp [hx]))
      simp [emitSorted, h1, h2, mapMembersFlat, List.append_assoc]

theorem emitSorted_ok {econv : Instr} {cfg : Config} {e : Ty}
    (r0 : Buffer × Val) (rest : List (Buffer × Val))
    (he : ∀ r ∈ r0 :: rest, ∀ w, econv r.2 w = some (w ++ elemOut cfg e r.2))
    (w : Buffer) :
    emitSorted econv (r0 :: rest) true (w ++ [123, 34]) =
      some (w ++ ([123] ++ mapMembersFlat cfg e true (r0 :: rest))) := by
  have h1 := he r0 (by simp)
  have h2 := emitSorted_tail rest (fun x hx => he x (by simp [hx]))
  simp [emitSorted, h1, h2, mapMembersFlat, List.append_assoc]

end MapEncoder

@[simp] theorem primOut_string (v : Val) :
    primOut .string v = strBytes (asStr v) := by
  simp [primOut, typeconv, ptrStringToBuf]

@[simp] theorem elemOut_string (cfg : Config) (v : Val) :
    elemOut cfg .string v = quotedStr v := rfl

namespace MapEncoder

/-- The tail of the string fast-path loops: each separator carries the
previous value's closing quote. -/
def strStrTail : List (Val × Val) → List Nat
  | [] => []
  | kv :: rest =>
      [34, 44, 34] ++ strBytes (asStr kv.1) ++ [34, 58, 34] ++
        strBytes (asStr kv.2) ++ strStrTail rest

theorem strStrEntries_tail :
    ∀ (entries : List (Val × Val)) (w : Buffer),
      strStrEntries entries false w = w ++ strStrTail entries := by
  intro entries
  induction entries with
  | nil => intro w; simp [strStrEntries, strStrTail]
  | cons kv rest ih =>
      intro w
      simp [strStrEntries, strStrTail, ptrStringToBuf, ih,
        List.append_assoc]

theorem strStrTail_bridge (cfg : Config) :
    ∀ (entries : List (Val × Val)) (L : List Nat),
      strStrTail entries ++ 34 :: L =
        [34] ++ mapMembersFlat cfg .string false
          (entries.map (fun kv => (strBytes (asStr kv.1), kv.2))) ++ L := by
  intro entries
  induction entries with
  | nil => intro L; simp [strStrTail, mapMembersFlat]
  | cons kv rest ih =>
      intro L
      simp [strStrTail, mapMembersFlat, quotedStr, ih, List.append_assoc]

/-- The unsorted string-to-string fast path writes the object over the
entries in native iteration order. -/
theorem strStrInstr_ok (cfg : Config) (kv : Val × Val)
    (rest : List (Val × Val)) (w : Buffer) :
    strStrInstr (.vmap (some (kv :: rest))) w =
      some (w ++ ([123] ++ mapMembersFlat cfg .string true
        ((kv :: rest).map (fun p => (strBytes (asStr p.1), p.2))) ++ [125])) := by
  have hb := strStrTail_bridge cfg rest [125]
  simp [strStrInstr, strStrEntries, strStrEntries_tail, ptrStringToBuf,
    mapMembersFlat, quotedStr, hb, List.append_assoc]

/-- The tail of the sorted string fast-path emission. -/
def sortStrStrTail : List (Buffer × Val) → List Nat
  | [] => []
  | r :: rest =>
      [34, 44, 34] ++ r.1 ++ [34, 58, 34] ++ strBytes (asStr r.2) ++
        sortStrStrTail rest

theorem sortStrStrEmit_tail :
    ∀ (recs : List (Buffer × Val)) (w : Buffer),
      sortStrStrEmit recs false w = w ++ sortStrStrTail recs := by
  intro recs
  induction recs with
  | nil => intro w; simp [sortStrStrEmit, sortStrStrTail]
  | cons r rest ih =>
      intro w
      simp [sortStrStrEmit, sortStrStrTail, ptrStringToBuf, ih,
        List.append_assoc]

theorem sortStrStrTail_bridge (cfg : Config) :
    ∀ (recs : List (Buffer × Val)) (L : List Nat),
      sortStrStrTail recs ++ 34 :: L =
        [34] ++ mapMembersFlat cfg .string false recs ++ L := by
  intro recs
  induction recs with
  | nil => intro L; simp [sortStrStrTail, mapMembersFlat]
  | cons r rest ih =>
      intro L
      simp [sortStrStrTail, mapMembersFlat, quotedStr, ih,
        List.append_assoc]

/-- The sorted string-to-string emission over a non-empty record list. -/
theorem sortStrStrEmit_ok (cfg : Config) (r0 : Buffer × Val)
    (rest : List (Buffer × Val)) (w : Buffer) :
    sortStrStrEmit (r0 :: rest) true (w ++ [123, 34]) ++ [34, 125] =
      w ++ ([123] ++ mapMembersFlat cfg .string true (r0 :: rest) ++ [125]) := by
  have hb := sortStrStrTail_bridge cfg rest [125]
  simp [sortStrStrEmit, sortStrStrEmit_tail, ptrStringToBuf,
    mapMembersFlat, quotedStr, hb, List.append_assoc]

/-- The first pass of sortInstr renders every key into the buffer and
records exactly the (rendered key bytes, value address) pairs, in
iteration order. -/
theorem sortInstr_pass {kconv : Val → Buffer → Buffer}
    {kOutF : Val → List Nat} (hk : ∀ v w, kconv v w = w ++ kOutF v) :
    ∀ (entries : List (Val × Val)) (b : Buffer)
      (rs : List (Buffer × Val)),
      List.foldl
        (fun (a : Buffer × List (Buffer × Val)) kv =>
          (kconv kv.1 a.1, a.2 ++ [((kconv kv.1 a.1).drop a.1.length, kv.2)]))
        (b, rs) entries =
      (b ++ (entries.map (fun kv => kOutF kv.1)).flatten,
       rs ++ entries.map (fun kv => (kOutF kv.1, kv.2))) := by
  intro entries
  induction entries with
  | nil => intro b rs; simp
  | cons kv rest ih =>
      intro b rs
      have hstep : (kconv kv.1 (b, rs).1,
          (b, rs).2 ++ [((kconv kv.1 (b, rs).1).drop (b, rs).1.length, kv.2)]) =
          ((b ++ kOutF kv.1 : Buffer), rs ++ [(kOutF kv.1, kv.2)]) := by
        simp [hk, List.drop_left]
      rw [List.foldl_cons, hstep, ih]
      simp [List.append_assoc]

/-- The ordered generic map instruction writes the object over the
records sorted by rendered key text, and splices the first-pass key
bytes out of the buffer: the caller's bytes survive unchanged. -/
theorem sortInstr_ok {kconv : Val → Buffer → Buffer} {econv : Instr}
    {kOutF : Val → List Nat} {cfg : Config} {e : Ty}
    (hk : ∀ v w, kconv v w = w ++ kOutF v)
    (entries : List (Val × Val)) (hne : entries ≠ [])
    (he : ∀ kv ∈ entries, ∀ w, econv kv.2 w = some (w ++ elemOut cfg e kv.2))
    (w : Buffer) :
    sortInstr kconv econv (.vmap (some entries)) w =
      some (w ++ ([123] ++ mapMembersFlat cfg e true
        (List.insertionSort keLe
          (entries.map (fun kv => (kOutF kv.1, kv.2)))) ++ [125])) := by
  have hpass := sortInstr_pass hk entries w []
  simp only [List.nil_append] at hpass
  have hlenne : entries.length ≠ 0 := by
    intro h0
    exact hne (List.length_eq_zero.mp h0)
  have hslen : (List.insertionSort keLe
      (entries.map (fun kv => (kOutF kv.1, kv.2)))).length = entries.length := by
    rw [(List.perm_insertionSort keLe _).length_eq, List.length_map]
  obtain ⟨s0, srest, hsorted⟩ :
      ∃ a l, List.insertionSort keLe
        (entries.map (fun kv => (kOutF kv.1, kv.2))) = a :: l := by
    cases hc : List.insertionSort keLe
        (entries.map (fun kv => (kOutF kv.1, kv.2))) with
    | nil =>
        rw [hc] at hslen
        exact absurd hslen.symm hlenne
    | cons a l => exact ⟨a, l, rfl⟩
  have hes : ∀ r ∈ s0 :: srest, ∀ w2,
      econv r.2 w2 = some (w2 ++ elemOut cfg e r.2) := by
    intro r hr w2
    have hr2 : r ∈ entries.map (fun kv => (kOutF kv.1, kv.2)) := by
      rw [← hsorted] at hr
      exact (List.perm_insertionSort keLe _).subset hr
    obtain ⟨kv, hkv, rfl⟩ := List.mem_map.mp hr2
    exact he kv hkv w2
  have hemit := emitSorted_ok s0 srest hes
    (w ++ (entries.map (fun kv => kOutF kv.1)).flatten)
  simp only [sortInstr]
  rw [if_neg (by simp [hlenne])]
  rw [hpass]
  simp only [strBytes_lbq]
  rw [hsorted, hemit]
  have htake : List.take w.length
      (w ++ ((List.map (fun kv => kOutF kv.1) entries).flatten ++
        ([123] ++ mapMembersFlat cfg e true (s0 :: srest)))) = w :=
    List.take_left' rfl
  have hdrop : List.drop
      (w ++ (List.map (fun kv => kOutF kv.1) entries).flatten).length
      (w ++ ((List.map (fun kv => kOutF kv.1) entries).flatten ++
        ([123] ++ mapMembersFlat cfg e true (s0 :: srest)))) =
      [123] ++ mapMembersFlat cfg e true (s0 :: srest) := by
    rw [← List.append_assoc]
    exact List.drop_left _ _
  simp [htake, hdrop, List.append_assoc]

end MapEncoder

/-! ### The master characterization: compilation succeeds on supported
shapes and Marshal appends exactly the declarative rendering. -/

/-- Characterization of a struct shape's compiled encoder. -/
def StructOK (cfg : Config) (fields : List (String × String × Ty)) : Prop :=
  supportedFields fields = true →
  ∃ is, NewStructEncoderWithConfig fields cfg = .ok is ∧
    ∀ vs, conformsFields vs fields = true →
    ∀ w, structMarshal is (.vstruct vs) w =
      some (w ++ jsonObjBytes (memberList cfg fields vs))

/-- Characterization of a slice shape's compiled encoder. -/
def SliceOK (cfg : Config) (e : Ty) : Prop :=
  supportedTy e = true →
  ∃ i, NewSliceEncoderWithConfig e cfg = .ok (some i) ∧
    ∀ es, conformsList es e = true →
    ∀ w, i (.vslice es) w = some (w ++ sliceOutBytes cfg e es)

/-- Characterization of a map shape's compiled encoder. -/
def MapOK (cfg : Config) (k e : Ty) : Prop :=
  supportedKey k = true → supportedTy e = true →
  ∃ i, NewMapEncoderWithConfig k e cfg = .ok i ∧
    ∀ o, conforms (.vmap o) (.map k e) = true →
    ∀ w, i (.vmap o) w = some (w ++ mapOutBytes cfg k e o)

/-! ### Inversion helpers for the predicates -/

theorem conformsList_cons {v : Val} {vs : List Val} {t : Ty}
    (h : conformsList (v :: vs) t = true) :
    conforms v t = true ∧ conformsList vs t = true := by
  rw [conformsList] at h
  exact Bool.and_eq_true_iff.mp h

theorem conformsEntries_cons {kv : Val × Val} {rest : List (Val × Val)}
    {k e : Ty} (h : conformsEntries (kv :: rest) k e = true) :
    conforms kv.1 k = true ∧ conforms kv.2 e = true ∧
      conformsEntries rest k e = true := by
  obtain ⟨a, b⟩ := kv
  rw [conformsEntries] at h
  simpa [Bool.and_eq_true_iff, and_assoc] using h

theorem conformsFields_cons {vs : List Val}
    {f : String × String × Ty} {fs : List (String × String × Ty)}
    (h : conformsFields vs (f :: fs) = true) :
    ∃ v0 vs2, vs = v0 :: vs2 ∧ conforms v0 f.2.2 = true ∧
      conformsFields vs2 fs = true := by
  cases vs with
  | nil => simp [conformsFields] at h
  | cons v0 vs2 =>
      rw [conformsFields] at h
      obtain ⟨h1, h2⟩ := Bool.and_eq_true_iff.mp h
      exact ⟨v0, vs2, rfl, h1, h2⟩

theorem supportedFields_cons {f : String × String × Ty}
    {fs : List (String × String × Ty)}
    (h : supportedFields (f :: fs) = true) :
    supportedField f = true ∧ supportedFields fs = true := by
  rw [supportedFields] at h
  exact Bool.and_eq_true_iff.mp h

/-! ### Bridges between characterized Marshal output and encOutput -/

theorem encOutput_slice {cfg : Config} {e : Ty} {i : Instr} {v : Val}
    {B : List Nat} (hc : NewSliceEncoderWithConfig e cfg = .ok (some i))
    (hm : ∀ w, i v w = some (w ++ B)) :
    encOutput (.slice e) cfg v = B := by
  simp [encOutput, sliceEncode, hc, sliceMarshal, hm]

theorem encOutput_struct {cfg : Config}
    {fs : List (String × String × Ty)} {is : List Instr} {v : Val}
    {B : List Nat} (hc : NewStructEncoderWithConfig fs cfg = .ok is)
    (hm : ∀ w, structMarshal is v w = some (w ++ B)) :
    encOutput (.struct fs) cfg v = B := by
  simp [encOutput, structEncode, hc, hm]

theorem encOutput_map {cfg : Config} {k e : Ty} {i : Instr} {v : Val}
    {B : List Nat} (hc : NewMapEncoderWithConfig k e cfg = .ok i)
    (hm : ∀ w, i v w = some (w ++ B)) :
    encOutput (.map k e) cfg v = B := by
  simp [encOutput, mapEncode, hc, hm]

/-! ### Conformance inversion -/

theorem conforms_string {v : Val} (h : conforms v .string = true) :
    ∃ s, v = .vstr s := by
  cases v <;> simp [conforms] at h
  exact ⟨_, rfl⟩

theorem conforms_slice {v : Val} {e : Ty}
    (h : conforms v (.slice e) = true) :
    ∃ es, v = .vslice es ∧ conformsList es e = true := by
  cases v <;> simp [conforms] at h
  exact ⟨_, rfl, h⟩

theorem conforms_struct {v : Val} {fs : List (String × String × Ty)}
    (h : conforms v (.struct fs) = true) :
    ∃ vs, v = .vstruct vs ∧ conformsFields vs fs = true := by
  cases v <;> simp [conforms] at h
  exact ⟨_, rfl, h⟩

theorem conforms_map {v : Val} {k e : Ty}
    (h : conforms v (.map k e) = true) :
    ∃ o, v = .vmap o ∧
      (o = none ∨ ∃ entries, o = some entries ∧
        conformsEntries entries k e = true) := by
  cases v with
  | vmap o =>
      refine ⟨o, rfl, ?_⟩
      cases o with
      | none => exact Or.inl rfl
      | some entries =>
          refine Or.inr ⟨entries, rfl, ?_⟩
          simpa [conforms] using h
  | vbool b => simp [conforms] at h
  | vint i => simp [conforms] at h
  | vuint n => simp [conforms] at h
  | vstr s => simp [conforms] at h
  | vptr p => simp [conforms] at h
  | vslice es => simp [conforms] at h
  | vstruct vs => simp [conforms] at h
  | other => simp [conforms] at h

theorem conforms_ptr {v : Val} {t : Ty} (h : conforms v (.ptr t) = true) :
    ∃ p, v = .vptr p ∧ (p = none ∨ ∃ pv, p = some pv ∧ conforms pv t = true) := by
  cases v with
  | vptr p =>
      refine ⟨p, rfl, ?_⟩
      cases p with
      | none => exact Or.inl rfl
      | some pv =>
          refine Or.inr ⟨pv, rfl, ?_⟩
          simpa [conforms] using h
  | vbool b => simp [conforms] at h
  | vint i => simp [conforms] at h
  | vuint n => simp [conforms] at h
  | vstr s => simp [conforms] at h
  | vmap o => simp [conforms] at h
  | vslice es => simp [conforms] at h
  | vstruct vs => simp [conforms] at h
  | other => simp [conforms] at h

theorem Ty_sizeOf_pos (t : Ty) : 0 < sizeOf t := by
  cases t <;> simp_arith

@[simp] theorem exceptOkBind {α β ε : Type} (a : α) (f : α → Except ε β) :
    (Except.ok a >>= f : Except ε β) = f a := rfl

@[simp] theorem typeconv_bool : typeconv .bool = some ptrBoolToBuf := rfl
@[simp] theorem typeconv_int : typeconv .int = some ptrIntToBuf := rfl
@[simp] theorem typeconv_int8 : typeconv .int8 = some ptrIntToBuf := rfl
@[simp] theorem typeconv_int16 : typeconv .int16 = some ptrIntToBuf := rfl
@[simp] theorem typeconv_int32 : typeconv .int32 = some ptrIntToBuf := rfl
@[simp] theorem typeconv_int64 : typeconv .int64 = some ptrIntToBuf := rfl
@[simp] theorem typeconv_uint : typeconv .uint = some ptrUintToBuf := rfl
@[simp] theorem typeconv_uint8 : typeconv .uint8 = some ptrUintToBuf := rfl
@[simp] theorem typeconv_uint16 : typeconv .uint16 = some ptrUintToBuf := rfl
@[simp] theorem typeconv_uint32 : typeconv .uint32 = some ptrUintToBuf := rfl
@[simp] theorem typeconv_uint64 : typeconv .uint64 = some ptrUintToBuf := rfl
@[simp] theorem typeconv_string2 : typeconv .string = some ptrStringToBuf := rfl

theorem isStringKind_eq {t : Ty} (h : isStringKind t = true) :
    t = .string := by
  cases t <;> simp [isStringKind] at h ⊢

theorem conformsEntries_mem {entries : List (Val × Val)} {k e : Ty}
    (h : conformsEntries entries k e = true) :
    ∀ kv ∈ entries, conforms kv.1 k = true ∧ conforms kv.2 e = true := by
  induction entries with
  | nil => intro kv hkv; cases hkv
  | cons kv0 rest ih =>
      intro kv hkv
      obtain ⟨h1, h2, h3⟩ := conformsEntries_cons h
      rcases List.mem_cons.mp hkv with rfl | hmem
      · exact ⟨h1, h2⟩
      · exact ih h3 kv hmem

theorem conformsList_mem {es : List Val} {t : Ty}
    (h : conformsList es t = true) :
    ∀ v ∈ es, conforms v t = true := by
  induction es with
  | nil => intro v hv; cases hv
  | cons v0 rest ih =>
      intro v hv
      obtain ⟨h1, h2⟩ := conformsList_cons h
      rcases List.mem_cons.mp hv with rfl | hmem
      · exact h1
      · exact ih h2 v hmem

/-! ### The four map instructions produce mapOutBytes -/

theorem strStrInstr_chars (cfg : Config) (hcfg : cfg.SortMapKeys = false)
    (o : Option (List (Val × Val))) (w : Buffer) :
    MapEncoder.strStrInstr (.vmap o) w =
      some (w ++ mapOutBytes cfg .string .string o) := by
  cases o with
  | none => simp [MapEncoder.strStrInstr, mapOutBytes]
  | some entries =>
      cases entries with
      | nil => simp [MapEncoder.strStrInstr, mapOutBytes]
      | cons kv rest =>
          rw [MapEncoder.strStrInstr_ok cfg kv rest w]
          simp [mapOutBytes, hcfg]

theorem sortStrStrInstr_chars (cfg : Config)
    (hcfg : cfg.SortMapKeys = true)
    (o : Option (List (Val × Val))) (w : Buffer) :
    MapEncoder.sortStrStrInstr (.vmap o) w =
      some (w ++ mapOutBytes cfg .string .string o) := by
  cases o with
  | none => simp [MapEncoder.sortStrStrInstr, mapOutBytes]
  | some entries =>
      cases entries with
      | nil => simp [MapEncoder.sortStrStrInstr, mapOutBytes]
      | cons kv rest =>
          have hslen : (List.insertionSort MapEncoder.keLe
              ((kv :: rest).map (fun p => (strBytes (asStr p.1), p.2)))).length =
              (kv :: rest).length := by
            rw [(List.perm_insertionSort MapEncoder.keLe _).length_eq,
              List.length_map]
          obtain ⟨s0, srest, hsorted⟩ :
              ∃ a l, List.insertionSort MapEncoder.keLe
                ((kv :: rest).map (fun p => (strBytes (asStr p.1), p.2))) =
                  a :: l := by
            cases hc : List.insertionSort MapEncoder.keLe
                ((kv :: rest).map (fun p => (strBytes (asStr p.1), p.2))) with
            | nil => rw [hc] at hslen; simp at hslen
            | cons a l => exact ⟨a, l, rfl⟩
          simp only [MapEncoder.sortStrStrInstr, List.length_cons]
          rw [if_neg (by simp)]
          simp only [strBytes_lbq, strBytes_qrb]
          rw [hsorted, MapEncoder.sortStrStrEmit_ok cfg s0 srest w]
          simp only [mapOutBytes, hcfg, if_pos, List.length_cons]
          rw [if_neg (by simp)]
          have hrecs : (kv :: rest).map
              (fun p => (primOut .string p.1, p.2)) =
              (kv :: rest).map (fun p => (strBytes (asStr p.1), p.2)) := by
            simp
          rw [hrecs, hsorted]

theorem genericInstr_chars {cfg : Config} {k e : Ty}
    {kconv : Val → Buffer → Buffer} {econv : Instr}
    (hk : ∀ v w, kconv v w = w ++ primOut k v)
    (he : ∀ v, conforms v e = true →
      ∀ w, econv v w = some (w ++ elemOut cfg e v)) :
    ∀ o, conforms (.vmap o) (.map k e) = true →
    ∀ w, (if cfg.SortMapKeys then MapEncoder.sortInstr kconv econv
          else MapEncoder.instr kconv econv) (.vmap o) w =
      some (w ++ mapOutBytes cfg k e o) := by
  intro o hconf w
  cases hcfg : cfg.SortMapKeys with
  | false =>
      rw [if_neg (by simp [hcfg])]
      cases o with
      | none => simp [MapEncoder.instr, mapOutBytes]
      | some entries =>
          cases entries with
          | nil => simp [MapEncoder.instr, mapOutBytes]
          | cons kv rest =>
              obtain ⟨o2, ho2, hco⟩ := conforms_map hconf
              obtain rfl : o2 = some (kv :: rest) := by
                injection ho2.symm
              rcases hco with h0 | ⟨entries2, he2, hce⟩
              · cases h0
              · obtain rfl : entries2 = kv :: rest := by
                  injection he2 with h2
                  exact h2.symm
                have hmem := conformsEntries_mem hce
                rw [MapEncoder.instr_ok hk (kv :: rest) (by simp)
                  (fun p hp w2 => he p.2 (hmem p hp).2 w2) w]
                simp [mapOutBytes, hcfg]
  | true =>
      rw [if_pos (by simp [hcfg])]
      cases o with
      | none => simp [MapEncoder.sortInstr, mapOutBytes]
      | some entries =>
          cases entries with
          | nil => simp [MapEncoder.sortInstr, mapOutBytes]
          | cons kv rest =>
              obtain ⟨o2, ho2, hco⟩ := conforms_map hconf
              obtain rfl : o2 = some (kv :: rest) := by
                injection ho2.symm
              rcases hco with h0 | ⟨entries2, he2, hce⟩
              · cases h0
              · obtain rfl : entries2 = kv :: rest := by
                  injection he2 with h2
                  exact h2.symm
                have hmem := conformsEntries_mem hce
                rw [MapEncoder.sortInstr_ok hk (kv :: rest) (by simp)
                  (fun p hp w2 => he p.2 (hmem p hp).2 w2) w]
                simp [mapOutBytes, hcfg]

/-! ### Assembly: the map compiler satisfies MapOK, given the induction
hypotheses for strictly smaller shapes. -/

theorem mapOK_step (n : Nat) (cfg : Config)
    (IHslice : ∀ e2, sizeOf e2 ≤ n → SliceOK cfg e2)
    (IHstruct : ∀ fs, sizeOf fs ≤ n → StructOK cfg fs)
    (IHmap : ∀ k2 e2, sizeOf k2 + sizeOf e2 ≤ n → MapOK cfg k2 e2) :
    ∀ k e, sizeOf k + sizeOf e ≤ n + 1 → MapOK cfg k e := by
  intro k e hsz hkey hsup
  have hkpos := Ty_sizeOf_pos k
  obtain ⟨c, hc⟩ : ∃ c, typeconv k = some c := by
    rw [supportedKey] at hkey
    exact Option.isSome_iff_exists.mp hkey
  by_cases hss : (isStringKind k && isStringKind e) = true
  · -- the string-to-string fast path
    obtain ⟨hk1, hk2⟩ := Bool.and_eq_true_iff.mp hss
    obtain rfl := isStringKind_eq hk1
    obtain rfl := isStringKind_eq hk2
    refine ⟨if cfg.SortMapKeys then MapEncoder.sortStrStrInstr
            else MapEncoder.strStrInstr, by simp [NewMapEncoderWithConfig,
              isStringKind], ?_⟩
    intro o hconf w
    cases hcfg : cfg.SortMapKeys with
    | true =>
        rw [if_pos (by simp [hcfg])]
        exact sortStrStrInstr_chars cfg hcfg o w
    | false =>
        rw [if_neg (by simp [hcfg])]
        exact strStrInstr_chars cfg hcfg o w
  · -- the generic path: resolve econv by element kind
    have primArm : ∀ (e2 : Ty) (convE : Val → Buffer → Buffer),
        (NewMapEncoderWithConfig k e2 cfg =
          .ok (if cfg.SortMapKeys then
                 MapEncoder.sortInstr c (fun v w => some (convE v w))
               else MapEncoder.instr c (fun v w => some (convE v w)))) →
        typeconv e2 = some convE →
        (∀ v, elemOut cfg e2 v = primOut e2 v) →
        ∃ i, NewMapEncoderWithConfig k e2 cfg = .ok i ∧
          ∀ o, conforms (.vmap o) (.map k e2) = true →
          ∀ w, i (.vmap o) w = some (w ++ mapOutBytes cfg k e2 o) := by
      intro e2 convE hcomp hce helem
      refine ⟨_, hcomp, ?_⟩
      intro o hconf w
      refine genericInstr_chars (typeconv_local hc) ?_ o hconf w
      intro v _ w2
      simp [typeconv_local hce, helem]
    have ptrPrimArm : ∀ (inner : Ty) (convI : Val → Buffer → Buffer),
        (NewMapEncoderWithConfig k (.ptr inner) cfg =
          .ok (if cfg.SortMapKeys then
                 MapEncoder.sortInstr c
                   (MapEncoder.ptrElemInstr (fun p w => some (convI p w)))
               else MapEncoder.instr c
                   (MapEncoder.ptrElemInstr (fun p w => some (convI p w))))) →
        typeconv inner = some convI →
        (∀ p, elemOut cfg (.ptr inner) (.vptr (some p)) = primOut inner p) →
        (elemOut cfg (.ptr inner) (.vptr none) = nullBytes) →
        ∃ i, NewMapEncoderWithConfig k (.ptr inner) cfg = .ok i ∧
          ∀ o, conforms (.vmap o) (.map k (.ptr inner)) = true →
          ∀ w, i (.vmap o) w = some (w ++ mapOutBytes cfg k (.ptr inner) o) := by
      intro inner convI hcomp hci hsome hnone
      refine ⟨_, hcomp, ?_⟩
      intro o hconf w
      refine genericInstr_chars (typeconv_local hc) ?_ o hconf w
      intro v hv w2
      obtain ⟨p, rfl, hp⟩ := conforms_ptr hv
      rcases hp with rfl | ⟨pv, rfl, hpv⟩
      · simp [MapEncoder.ptrElemInstr, hnone]
      · simp [MapEncoder.ptrElemInstr, typeconv_local hci, hsome]
    cases e with
    | bool =>
        exact primArm .bool ptrBoolToBuf
            (by simp [NewMapEncoderWithConfig, hc, isStringKind]) rfl (fun v => rfl)
    | int =>
        exact primArm .int ptrIntToBuf
            (by simp [NewMapEncoderWithConfig, hc, isStringKind]) rfl (fun v => rfl)
    | int8 =>
        exact primArm .int8 ptrIntToBuf
            (by simp [NewMapEncoderWithConfig, hc, isStringKind]) rfl (fun v => rfl)
    | int16 =>
        exact primArm .int16 ptrIntToBuf
            (by simp [NewMapEncoderWithConfig, hc, isStringKind]) rfl (fun v => rfl)
    | int32 =>
        exact primArm .int32 ptrIntToBuf
            (by simp [NewMapEncoderWithConfig, hc, isStringKind]) rfl (fun v => rfl)
    | int64 =>
        exact primArm .int64 ptrIntToBuf
            (by simp [NewMapEncoderWithConfig, hc, isStringKind]) rfl (fun v => rfl)
    | uint =>
        exact primArm .uint ptrUintToBuf
            (by simp [NewMapEncoderWithConfig, hc, isStringKind]) rfl (fun v => rfl)
    | uint8 =>
        exact primArm .uint8 ptrUintToBuf
            (by simp [NewMapEncoderWithConfig, hc, isStringKind]) rfl (fun v => rfl)
    | uint16 =>
        exact primArm .uint16 ptrUintToBuf
            (by simp [NewMapEncoderWithConfig, hc, isStringKind]) rfl (fun v => rfl)
    | uint32 =>
        exact primArm .uint32 ptrUintToBuf
            (by simp [NewMapEncoderWithConfig, hc, isStringKind]) rfl (fun v => rfl)
    | uint64 =>
        exact primArm .uint64 ptrUintToBuf
            (by simp [NewMapEncoderWithConfig, hc, isStringKind]) rfl (fun v => rfl)
    | chan => simp [supportedTy] at hsup
    | func => simp [supportedTy] at hsup
    | complex64 => simp [supportedTy] at hsup
    | complex128 => simp [supportedTy] at hsup
    | string =>
        have hks : isStringKind k = false := by
          revert hss
          cases isStringKind k <;> simp [isStringKind]
        have hcond : (isStringKind k && isStringKind Ty.string) = false := by
          rw [hks]; rfl
        refine ⟨_, (by simp [NewMapEncoderWithConfig, hc, hcond] :
          NewMapEncoderWithConfig k .string cfg =
            .ok (if cfg.SortMapKeys then
                   MapEncoder.sortInstr c
                     (fun v w => some (ptrStringToBuf v (w ++ [34]) ++ [34]))
                 else MapEncoder.instr c
                     (fun v w => some (ptrStringToBuf v (w ++ [34]) ++ [34])))), ?_⟩
        intro o hconf w
        refine genericInstr_chars (typeconv_local hc) ?_ o hconf w
        intro v _ w2
        simp [ptrStringToBuf, quotedStr, List.append_assoc]
    | slice e2 =>
        have hsub : sizeOf e2 ≤ n := by
          simp only [Ty.slice.sizeOf_spec] at hsz
          omega
        have hsupE : supportedTy e2 = true := by
          simpa [supportedTy] using hsup
        obtain ⟨i2, hc2, hm2⟩ := IHslice e2 hsub hsupE
        refine ⟨_, (by simp [NewMapEncoderWithConfig, hc, hc2, isStringKind] :
          NewMapEncoderWithConfig k (.slice e2) cfg =
            .ok (if cfg.SortMapKeys then
                   MapEncoder.sortInstr c (fun v w => sliceMarshal (some i2) v w)
                 else MapEncoder.instr c
                   (fun v w => sliceMarshal (some i2) v w))), ?_⟩
        intro o hconf w
        refine genericInstr_chars (typeconv_local hc) ?_ o hconf w
        intro v hv w2
        obtain ⟨es, rfl, hes⟩ := conforms_slice hv
        have hout := encOutput_slice hc2 (hm2 es hes)
        simp only [sliceMarshal, elemOut, hout]
        exact hm2 es hes w2
    | struct fs =>
        have hsub : sizeOf fs ≤ n := by
          simp only [Ty.struct.sizeOf_spec] at hsz
          omega
        have hsupE : supportedFields fs = true := by
          simpa [supportedTy] using hsup
        obtain ⟨is2, hc2, hm2⟩ := IHstruct fs hsub hsupE
        refine ⟨_, (by simp [NewMapEncoderWithConfig, hc, hc2, isStringKind] :
          NewMapEncoderWithConfig k (.struct fs) cfg =
            .ok (if cfg.SortMapKeys then
                   MapEncoder.sortInstr c (fun v w => structMarshal is2 v w)
                 else MapEncoder.instr c
                   (fun v w => structMarshal is2 v w))), ?_⟩
        intro o hconf w
        refine genericInstr_chars (typeconv_local hc) ?_ o hconf w
        intro v hv w2
        obtain ⟨vs, rfl, hvs⟩ := conforms_struct hv
        have hout := encOutput_struct hc2 (hm2 vs hvs)
        simp only [elemOut, hout]
        exact hm2 vs hvs w2
    | map k2 e2 =>
        have hsub : sizeOf k2 + sizeOf e2 ≤ n := by
          simp only [Ty.map.sizeOf_spec] at hsz
          omega
        have hsupE : supportedKey k2 = true ∧ supportedTy e2 = true := by
          have := hsup
          simp only [supportedTy, Bool.and_eq_true_iff] at this
          exact this
        obtain ⟨i2, hc2, hm2⟩ := IHmap k2 e2 hsub hsupE.1 hsupE.2
        refine ⟨_, (by simp [NewMapEncoderWithConfig, hc, hc2, isStringKind] :
          NewMapEncoderWithConfig k (.map k2 e2) cfg =
            .ok (if cfg.SortMapKeys then MapEncoder.sortInstr c i2
                 else MapEncoder.instr c i2)), ?_⟩
        intro o hconf w
        refine genericInstr_chars (typeconv_local hc) ?_ o hconf w
        intro v hv w2
        obtain ⟨o2, rfl, _⟩ := conforms_map hv
        have hout := encOutput_map hc2 (hm2 o2 hv)
        simp only [elemOut, hout]
        exact hm2 o2 hv w2
    | ptr inner =>
        have hsupI : supportedPtrInner inner = true := by
          simpa [supportedTy] using hsup
        cases inner with
        | bool =>
            exact ptrPrimArm .bool ptrBoolToBuf
                (by simp [NewMapEncoderWithConfig, hc, isStringKind]) rfl
                (fun p => rfl) rfl
        | int =>
            exact ptrPrimArm .int ptrIntToBuf
                (by simp [NewMapEncoderWithConfig, hc, isStringKind]) rfl
                (fun p => rfl) rfl
        | int8 =>
            exact ptrPrimArm .int8 ptrIntToBuf
                (by simp [NewMapEncoderWithConfig, hc, isStringKind]) rfl
                (fun p => rfl) rfl
        | int16 =>
            exact ptrPrimArm .int16 ptrIntToBuf
                (by simp [NewMapEncoderWithConfig, hc, isStringKind]) rfl
                (fun p => rfl) rfl
        | int32 =>
            exact ptrPrimArm .int32 ptrIntToBuf
                (by simp [NewMapEncoderWithConfig, hc, isStringKind]) rfl
                (fun p => rfl) rfl
        | int64 =>
            exact ptrPrimArm .int64 ptrIntToBuf
                (by simp [NewMapEncoderWithConfig, hc, isStringKind]) rfl
                (fun p => rfl) rfl
        | uint =>
            exact ptrPrimArm .uint ptrUintToBuf
                (by simp [NewMapEncoderWithConfig, hc, isStringKind]) rfl
                (fun p => rfl) rfl
        | uint8 =>
            exact ptrPrimArm .uint8 ptrUintToBuf
                (by simp [NewMapEncoderWithConfig, hc, isStringKind]) rfl
                (fun p => rfl) rfl
        | uint16 =>
            exact ptrPrimArm .uint16 ptrUintToBuf
                (by simp [NewMapEncoderWithConfig, hc, isStringKind]) rfl
                (fun p => rfl) rfl
        | uint32 =>
            exact ptrPrimArm .uint32 ptrUintToBuf
                (by simp [NewMapEncoderWithConfig, hc, isStringKind]) rfl
                (fun p => rfl) rfl
        | uint64 =>
            exact ptrPrimArm .uint64 ptrUintToBuf
                (by simp [NewMapEncoderWithConfig, hc, isStringKind]) rfl
                (fun p => rfl) rfl
        | string =>
            refine ⟨_, (by simp [NewMapEncoderWithConfig, hc, isStringKind] :
              NewMapEncoderWithConfig k (.ptr .string) cfg =
                .ok (if cfg.SortMapKeys then
                       MapEncoder.sortInstr c MapEncoder.ptrStrElemInstr
                     else MapEncoder.instr c MapEncoder.ptrStrElemInstr)), ?_⟩
            intro o hconf w
            refine genericInstr_chars (typeconv_local hc) ?_ o hconf w
            intro v hv w2
            obtain ⟨p, rfl, hp⟩ := conforms_ptr hv
            rcases hp with rfl | ⟨pv, rfl, hpv⟩
            · simp [MapEncoder.ptrStrElemInstr, elemOut]
            · simp [MapEncoder.ptrStrElemInstr, elemOut, ptrStringToBuf,
                quotedStr, List.append_assoc]
        | slice e2 =>
            have hsub : sizeOf e2 ≤ n := by
              simp only [Ty.ptr.sizeOf_spec, Ty.slice.sizeOf_spec] at hsz
              omega
            have hsupE : supportedTy e2 = true := by
              simpa [supportedPtrInner] using hsupI
            obtain ⟨i2, hc2, hm2⟩ := IHslice e2 hsub hsupE
            refine ⟨_, (by simp [NewMapEncoderWithConfig, hc, hc2, isStringKind] :
              NewMapEncoderWithConfig k (.ptr (.slice e2)) cfg =
                .ok (if cfg.SortMapKeys then
                       MapEncoder.sortInstr c (MapEncoder.ptrElemInstr
                         (fun v w => sliceMarshal (some i2) v w))
                     else MapEncoder.instr c (MapEncoder.ptrElemInstr
                         (fun v w => sliceMarshal (some i2) v w)))), ?_⟩
            intro o hconf w
            refine genericInstr_chars (typeconv_local hc) ?_ o hconf w
            intro v hv w2
            obtain ⟨p, rfl, hp⟩ := conforms_ptr hv
            rcases hp with rfl | ⟨pv, rfl, hpv⟩
            · simp [MapEncoder.ptrElemInstr, elemOut]
            · obtain ⟨es, rfl, hes⟩ := conforms_slice hpv
              have hout := encOutput_slice hc2 (hm2 es hes)
              simp only [MapEncoder.ptrElemInstr, sliceMarshal, elemOut, hout]
              exact hm2 es hes w2
        | struct fs =>
            have hsub : sizeOf fs ≤ n := by
              simp only [Ty.ptr.sizeOf_spec, Ty.struct.sizeOf_spec] at hsz
              omega
            have hsupE : supportedFields fs = true := by
              simpa [supportedPtrInner] using hsupI
            obtain ⟨is2, hc2, hm2⟩ := IHstruct fs hsub hsupE
            refine ⟨_, (by simp [NewMapEncoderWithConfig, hc, hc2, isStringKind] :
              NewMapEncoderWithConfig k (.ptr (.struct fs)) cfg =
                .ok (if cfg.SortMapKeys then
                       MapEncoder.sortInstr c (MapEncoder.ptrElemInstr
                         (fun v w => structMarshal is2 v w))
                     else MapEncoder.instr c (MapEncoder.ptrElemInstr
                         (fun v w => structMarshal is2 v w)))), ?_⟩
            intro o hconf w
            refine genericInstr_chars (typeconv_local hc) ?_ o hconf w
            intro v hv w2
            obtain ⟨p, rfl, hp⟩ := conforms_ptr hv
            rcases hp with rfl | ⟨pv, rfl, hpv⟩
            · simp [MapEncoder.ptrElemInstr, elemOut]
            · obtain ⟨vs, rfl, hvs⟩ := conforms_struct hpv
              have hout := encOutput_struct hc2 (hm2 vs hvs)
              simp only [MapEncoder.ptrElemInstr, elemOut, hout]
              exact hm2 vs hvs w2
        | map k2 e2 =>
            have hsub : sizeOf k2 + sizeOf e2 ≤ n := by
              simp only [Ty.ptr.sizeOf_spec, Ty.map.sizeOf_spec] at hsz
              omega
            have hsupE : supportedKey k2 = true ∧ supportedTy e2 = true := by
              have := hsupI
              simp only [supportedPtrInner, Bool.and_eq_true_iff] at this
              exact this
            obtain ⟨i2, hc2, hm2⟩ := IHmap k2 e2 hsub hsupE.1 hsupE.2
            refine ⟨_, (by simp [NewMapEncoderWithConfig, hc, hc2, isStringKind] :
              NewMapEncoderWithConfig k (.ptr (.map k2 e2)) cfg =
                .ok (if cfg.SortMapKeys then
                       MapEncoder.sortInstr c (MapEncoder.ptrElemInstr i2)
                     else MapEncoder.instr c (MapEncoder.ptrElemInstr i2))), ?_⟩
            intro o hconf w
            refine genericInstr_chars (typeconv_local hc) ?_ o hconf w
            intro v hv w2
            obtain ⟨p, rfl, hp⟩ := conforms_ptr hv
            rcases hp with rfl | ⟨pv, rfl, hpv⟩
            · simp [MapEncoder.ptrElemInstr, elemOut]
            · obtain ⟨o2, rfl, _⟩ := conforms_map hpv
              have hout := encOutput_map hc2 (hm2 o2 hpv)
              simp only [MapEncoder.ptrElemInstr, elemOut, hout]
              exact hm2 o2 hpv w2
        | ptr inner2 => simp [supportedPtrInner] at hsupI
        | chan => simp [supportedPtrInner] at hsupI
        | func => simp [supportedPtrInner] at hsupI
        | complex64 => simp [supportedPtrInner] at hsupI
        | complex128 => simp [supportedPtrInner] at hsupI

/-! ### Assembly: the slice compiler satisfies SliceOK, given the
induction hypotheses for strictly smaller shapes. -/

theorem sliceOK_step (n : Nat) (cfg : Config)
    (IHslice : ∀ e2, sizeOf e2 ≤ n → SliceOK cfg e2)
    (IHstruct : ∀ fs, sizeOf fs ≤ n → StructOK cfg fs)
    (IHmap : ∀ k2 e2, sizeOf k2 + sizeOf e2 ≤ n → MapOK cfg k2 e2) :
    ∀ e, sizeOf e ≤ n + 1 → SliceOK cfg e := by
  intro e hsz hsup
  have primArm : ∀ (e2 : Ty) (convE : Val → Buffer → Buffer),
      (NewSliceEncoderWithConfig e2 cfg =
        .ok (some (sliceLoopInstr (fun ev w => some (convE ev w))))) →
      typeconv e2 = some convE →
      (∀ v, elemOut cfg e2 v = primOut e2 v) →
      ∃ i, NewSliceEncoderWithConfig e2 cfg = .ok (some i) ∧
        ∀ es, conformsList es e2 = true →
        ∀ w, i (.vslice es) w = some (w ++ sliceOutBytes cfg e2 es) := by
    intro e2 convE hcomp hce helem
    refine ⟨_, hcomp, ?_⟩
    intro es _ w
    have hm : ∀ ev ∈ es, ∀ w2,
        (fun (ev : Val) (w : Buffer) => some (convE ev w)) ev w2 =
          some (w2 ++ elemOut cfg e2 ev) := by
      intro ev _ w2
      simp [typeconv_local hce, helem]
    rw [sliceLoopInstr_ok hm w]
    simp [sliceOutBytes]
  have ptrPrimArm : ∀ (inner : Ty) (convI : Val → Buffer → Buffer),
      (NewSliceEncoderWithConfig (.ptr inner) cfg =
        .ok (some (sliceLoopInstr
          (ptrElemConv (fun p w => some (convI p w)))))) →
      typeconv inner = some convI →
      (∀ p, elemOut cfg (.ptr inner) (.vptr (some p)) = primOut inner p) →
      (elemOut cfg (.ptr inner) (.vptr none) = nullBytes) →
      ∃ i, NewSliceEncoderWithConfig (.ptr inner) cfg = .ok (some i) ∧
        ∀ es, conformsList es (.ptr inner) = true →
        ∀ w, i (.vslice es) w =
          some (w ++ sliceOutBytes cfg (.ptr inner) es) := by
    intro inner convI hcomp hci hsome hnone
    refine ⟨_, hcomp, ?_⟩
    intro es hes w
    have hmem := conformsList_mem hes
    have hm : ∀ ev ∈ es, ∀ w2,
        ptrElemConv (fun p w => some (convI p w)) ev w2 =
          some (w2 ++ elemOut cfg (.ptr inner) ev) := by
      intro ev hin w2
      obtain ⟨p, rfl, hp⟩ := conforms_ptr (hmem ev hin)
      rcases hp with rfl | ⟨pv, rfl, hpv⟩
      · simp [ptrElemConv, hnone]
      · simp [ptrElemConv, typeconv_local hci, hsome]
    rw [sliceLoopInstr_ok hm w]
    simp [sliceOutBytes]
  cases e with
  | bool =>
      exact primArm .bool ptrBoolToBuf
          (by simp [NewSliceEncoderWithConfig]) rfl (fun v => rfl)
  | int =>
      exact primArm .int ptrIntToBuf
          (by simp [NewSliceEncoderWithConfig]) rfl (fun v => rfl)
  | int8 =>
      exact primArm .int8 ptrIntToBuf
          (by simp [NewSliceEncoderWithConfig]) rfl (fun v => rfl)
  | int16 =>
      exact primArm .int16 ptrIntToBuf
          (by simp [NewSliceEncoderWithConfig]) rfl (fun v => rfl)
  | int32 =>
      exact primArm .int32 ptrIntToBuf
          (by simp [NewSliceEncoderWithConfig]) rfl (fun v => rfl)
  | int64 =>
      exact primArm .int64 ptrIntToBuf
          (by simp [NewSliceEncoderWithConfig]) rfl (fun v => rfl)
  | uint =>
      exact primArm .uint ptrUintToBuf
          (by simp [NewSliceEncoderWithConfig]) rfl (fun v => rfl)
  | uint8 =>
      exact primArm .uint8 ptrUintToBuf
          (by simp [NewSliceEncoderWithConfig]) rfl (fun v => rfl)
  | uint16 =>
      exact primArm .uint16 ptrUintToBuf
          (by simp [NewSliceEncoderWithConfig]) rfl (fun v => rfl)
  | uint32 =>
      exact primArm .uint32 ptrUintToBuf
          (by simp [NewSliceEncoderWithConfig]) rfl (fun v => rfl)
  | uint64 =>
      exact primArm .uint64 ptrUintToBuf
          (by simp [NewSliceEncoderWithConfig]) rfl (fun v => rfl)
  | chan => simp [supportedTy] at hsup
  | func => simp [supportedTy] at hsup
  | complex64 => simp [supportedTy] at hsup
  | complex128 => simp [supportedTy] at hsup
  | string =>
      refine ⟨_, (by simp [NewSliceEncoderWithConfig] :
        NewSliceEncoderWithConfig .string cfg =
          .ok (some stringInstrSlice)), ?_⟩
      intro es _ w
      rw [stringInstr_ok es w]
      have hmap : es.map (elemOut cfg Ty.string) = es.map quotedStr := by
        induction es with
        | nil => rfl
        | cons x r ih => simp only [List.map_cons, ih]; rfl
      simp [sliceOutBytes, hmap]
  | slice e2 =>
      have hsub : sizeOf e2 ≤ n := by
        simp only [Ty.slice.sizeOf_spec] at hsz
        omega
      have hsupE : supportedTy e2 = true := by
        simpa [supportedTy] using hsup
      obtain ⟨i2, hc2, hm2⟩ := IHslice e2 hsub hsupE
      refine ⟨_, (by simp [NewSliceEncoderWithConfig, hc2] :
        NewSliceEncoderWithConfig (.slice e2) cfg =
          .ok (some (sliceLoopInstr
            (fun ev w => sliceMarshal (some i2) ev w)))), ?_⟩
      intro es hes w
      have hmem := conformsList_mem hes
      have hm : ∀ ev ∈ es, ∀ w2,
          sliceMarshal (some i2) ev w2 =
            some (w2 ++ elemOut cfg (.slice e2) ev) := by
        intro ev hin w2
        obtain ⟨es2, rfl, hes2⟩ := conforms_slice (hmem ev hin)
        have hout := encOutput_slice hc2 (hm2 es2 hes2)
        simp only [sliceMarshal, elemOut, hout]
        exact hm2 es2 hes2 w2
      rw [sliceLoopInstr_ok hm w]
      simp [sliceOutBytes]
  | struct fs =>
      have hsub : sizeOf fs ≤ n := by
        simp only [Ty.struct.sizeOf_spec] at hsz
        omega
      have hsupE : supportedFields fs = true := by
        simpa [supportedTy] using hsup
      obtain ⟨is2, hc2, hm2⟩ := IHstruct fs hsub hsupE
      refine ⟨_, (by simp [NewSliceEncoderWithConfig, hc2] :
        NewSliceEncoderWithConfig (.struct fs) cfg =
          .ok (some (sliceLoopInstr
            (fun ev w => structMarshal is2 ev w)))), ?_⟩
      intro es hes w
      have hmem := conformsList_mem hes
      have hm : ∀ ev ∈ es, ∀ w2,
          structMarshal is2 ev w2 =
            some (w2 ++ elemOut cfg (.struct fs) ev) := by
        intro ev hin w2
        obtain ⟨vs, rfl, hvs⟩ := conforms_struct (hmem ev hin)
        have hout := encOutput_struct hc2 (hm2 vs hvs)
        simp only [elemOut, hout]
        exact hm2 vs hvs w2
      rw [sliceLoopInstr_ok hm w]
      simp [sliceOutBytes]
  | map mk me =>
      have hsub : sizeOf mk + sizeOf me ≤ n := by
        simp only [Ty.map.sizeOf_spec] at hsz
        omega
      have hsupE : supportedKey mk = true ∧ supportedTy me = true := by
        have := hsup
        simp only [supportedTy, Bool.and_eq_true_iff] at this
        exact this
      obtain ⟨i2, hc2, hm2⟩ := IHmap mk me hsub hsupE.1 hsupE.2
      refine ⟨_, (by simp [NewSliceEncoderWithConfig, hc2] :
        NewSliceEncoderWithConfig (.map mk me) cfg =
          .ok (some (sliceLoopInstr i2))), ?_⟩
      intro es hes w
      have hmem := conformsList_mem hes
      have hm : ∀ ev ∈ es, ∀ w2,
          i2 ev w2 = some (w2 ++ elemOut cfg (.map mk me) ev) := by
        intro ev hin w2
        have hcv := hmem ev hin
        obtain ⟨o2, rfl, _⟩ := conforms_map hcv
        have hout := encOutput_map hc2 (hm2 o2 hcv)
        simp only [elemOut, hout]
        exact hm2 o2 hcv w2
      rw [sliceLoopInstr_ok hm w]
      simp [sliceOutBytes]
  | ptr inner =>
      have hsupI : supportedPtrInner inner = true := by
        simpa [supportedTy] using hsup
      cases inner with
      | bool =>
          exact ptrPrimArm .bool ptrBoolToBuf
              (by simp [NewSliceEncoderWithConfig]) rfl (fun p => rfl) rfl
      | int =>
          exact ptrPrimArm .int ptrIntToBuf
              (by simp [NewSliceEncoderWithConfig]) rfl (fun p => rfl) rfl
      | int8 =>
          exact ptrPrimArm .int8 ptrIntToBuf
              (by simp [NewSliceEncoderWithConfig]) rfl (fun p => rfl) rfl
      | int16 =>
          exact ptrPrimArm .int16 ptrIntToBuf
              (by simp [NewSliceEncoderWithConfig]) rfl (fun p => rfl) rfl
      | int32 =>
          exact ptrPrimArm .int32 ptrIntToBuf
              (by simp [NewSliceEncoderWithConfig]) rfl (fun p => rfl) rfl
      | int64 =>
          exact ptrPrimArm .int64 ptrIntToBuf
              (by simp [NewSliceEncoderWithConfig]) rfl (fun p => rfl) rfl
      | uint =>
          exact ptrPrimArm .uint ptrUintToBuf
              (by simp [NewSliceEncoderWithConfig]) rfl (fun p => rfl) rfl
      | uint8 =>
          exact ptrPrimArm .uint8 ptrUintToBuf
              (by simp [NewSliceEncoderWithConfig]) rfl (fun p => rfl) rfl
      | uint16 =>
          exact ptrPrimArm .uint16 ptrUintToBuf
              (by simp [NewSliceEncoderWithConfig]) rfl (fun p => rfl) rfl
      | uint32 =>
          exact ptrPrimArm .uint32 ptrUintToBuf
              (by simp [NewSliceEncoderWithConfig]) rfl (fun p => rfl) rfl
      | uint64 =>
          exact ptrPrimArm .uint64 ptrUintToBuf
              (by simp [NewSliceEncoderWithConfig]) rfl (fun p => rfl) rfl
      | string =>
          refine ⟨_, (by simp [NewSliceEncoderWithConfig] :
            NewSliceEncoderWithConfig (.ptr .string) cfg =
              .ok (some (sliceLoopInstr ptrStringConv))), ?_⟩
          intro es hes w
          have hmem := conformsList_mem hes
          have hm : ∀ ev ∈ es, ∀ w2,
              ptrStringConv ev w2 =
                some (w2 ++ elemOut cfg (.ptr .string) ev) := by
            intro ev hin w2
            obtain ⟨p, rfl, hp⟩ := conforms_ptr (hmem ev hin)
            rcases hp with rfl | ⟨pv, rfl, hpv⟩
            · simp [ptrStringConv, elemOut]
            · simp [ptrStringConv, elemOut, ptrStringToBuf, quotedStr,
                List.append_assoc]
          rw [sliceLoopInstr_ok hm w]
          simp [sliceOutBytes]
      | slice e2 =>
          have hsub : sizeOf e2 ≤ n := by
            simp only [Ty.ptr.sizeOf_spec, Ty.slice.sizeOf_spec] at hsz
            omega
          have hsupE : supportedTy e2 = true := by
            simpa [supportedPtrInner] using hsupI
          obtain ⟨i2, hc2, hm2⟩ := IHslice e2 hsub hsupE
          refine ⟨_, (by simp [NewSliceEncoderWithConfig, hc2] :
            NewSliceEncoderWithConfig (.ptr (.slice e2)) cfg =
              .ok (some (sliceLoopInstr (ptrElemConv
                (fun ev w => sliceMarshal (some i2) ev w))))), ?_⟩
          intro es hes w
          have hmem := conformsList_mem hes
          have hm : ∀ ev ∈ es, ∀ w2,
              ptrElemConv (fun ev w => sliceMarshal (some i2) ev w) ev w2 =
                some (w2 ++ elemOut cfg (.ptr (.slice e2)) ev) := by
            intro ev hin w2
            obtain ⟨p, rfl, hp⟩ := conforms_ptr (hmem ev hin)
            rcases hp with rfl | ⟨pv, rfl, hpv⟩
            · simp [ptrElemConv, elemOut]
            · obtain ⟨es2, rfl, hes2⟩ := conforms_slice hpv
              have hout := encOutput_slice hc2 (hm2 es2 hes2)
              simp only [ptrElemConv, sliceMarshal, elemOut, hout]
              exact hm2 es2 hes2 w2
          rw [sliceLoopInstr_ok hm w]
          simp [sliceOutBytes]
      | struct fs =>
          have hsub : sizeOf fs ≤ n := by
            simp only [Ty.ptr.sizeOf_spec, Ty.struct.sizeOf_spec] at hsz
            omega
          have hsupE : supportedFields fs = true := by
            simpa [supportedPtrInner] using hsupI
          obtain ⟨is2, hc2, hm2⟩ := IHstruct fs hsub hsupE
          refine ⟨_, (by simp [NewSliceEncoderWithConfig, hc2] :
            NewSliceEncoderWithConfig (.ptr (.struct fs)) cfg =
              .ok (some (sliceLoopInstr (ptrElemConv
                (fun ev w => structMarshal is2 ev w))))), ?_⟩
          intro es hes w
          have hmem := conformsList_mem hes
          have hm : ∀ ev ∈ es, ∀ w2,
              ptrElemConv (fun ev w => structMarshal is2 ev w) ev w2 =
                some (w2 ++ elemOut cfg (.ptr (.struct fs)) ev) := by
            intro ev hin w2
            obtain ⟨p, rfl, hp⟩ := conforms_ptr (hmem ev hin)
            rcases hp with rfl | ⟨pv, rfl, hpv⟩
            · simp [ptrElemConv, elemOut]
            · obtain ⟨vs, rfl, hvs⟩ := conforms_struct hpv
              have hout := encOutput_struct hc2 (hm2 vs hvs)
              simp only [ptrElemConv, elemOut, hout]
              exact hm2 vs hvs w2
          rw [sliceLoopInstr_ok hm w]
          simp [sliceOutBytes]
      | map mk me =>
          have hsub : sizeOf mk + sizeOf me ≤ n := by
            simp only [Ty.ptr.sizeOf_spec, Ty.map.sizeOf_spec] at hsz
            omega
          have hsupE : supportedKey mk = true ∧ supportedTy me = true := by
            have := hsupI
            simp only [supportedPtrInner, Bool.and_eq_true_iff] at this
            exact this
          obtain ⟨i2, hc2, hm2⟩ := IHmap mk me hsub hsupE.1 hsupE.2
          refine ⟨_, (by simp [NewSliceEncoderWithConfig, hc2] :
            NewSliceEncoderWithConfig (.ptr (.map mk me)) cfg =
              .ok (some (sliceLoopInstr (ptrElemConv i2)))), ?_⟩
          intro es hes w
          have hmem := conformsList_mem hes
          have hm : ∀ ev ∈ es, ∀ w2,
              ptrElemConv i2 ev w2 =
                some (w2 ++ elemOut cfg (.ptr (.map mk me)) ev) := by
            intro ev hin w2
            obtain ⟨p, rfl, hp⟩ := conforms_ptr (hmem ev hin)
            rcases hp with rfl | ⟨pv, rfl, hpv⟩
            · simp [ptrElemConv, elemOut]
            · obtain ⟨o2, rfl, _⟩ := conforms_map hpv
              have hout := encOutput_map hc2 (hm2 o2 hpv)
              simp only [ptrElemConv, elemOut, hout]
              exact hm2 o2 hpv w2
          rw [sliceLoopInstr_ok hm w]
          simp [sliceOutBytes]
      | ptr inner2 => simp [supportedPtrInner] at hsupI
      | chan => simp [supportedPtrInner] at hsupI
      | func => simp [supportedPtrInner] at hsupI
      | complex64 => simp [supportedPtrInner] at hsupI
      | complex128 => simp [supportedPtrInner] at hsupI

/-! ### Helpers for the struct compile loop -/

theorem rawConv_local (v : Val) (w : Buffer) :
    rawConv v w = w ++ rawConv v [] := by
  unfold rawConv
  by_cases h : (valBytes v).isEmpty <;> simp [h]

theorem strBytes_foldr_shift (l : List Char) (X : List Nat) :
    l.foldr (fun c acc => charBytes c ++ acc) X =
      l.foldr (fun c acc => charBytes c ++ acc) [] ++ X := by
  induction l with
  | nil => simp
  | cons c cs ih => simp [ih, List.append_assoc]

theorem strBytes_append (a b : String) :
    strBytes (a ++ b) = strBytes a ++ strBytes b := by
  unfold strBytes
  have h : (a ++ b).toList = a.toList ++ b.toList := by
    rw [String.congr_append]
    rfl
  rw [h, List.foldr_append, strBytes_foldr_shift]

theorem drop_cons_getD {vs : List Val} {i : Nat} {v0 : Val} {vs2 : List Val}
    (h : vs.drop i = v0 :: vs2) :
    vs.getD i .other = v0 ∧ vs.drop (i + 1) = vs2 := by
  constructor
  · have h0 : (vs.drop i)[0]? = some v0 := by rw [h]; simp
    rw [List.getElem?_drop] at h0
    simp only [Nat.add_zero] at h0
    simp [List.getD_eq_getElem?_getD, h0]
  · have h1 : vs.drop (i + 1) = (vs.drop i).drop 1 := by
      rw [List.drop_drop, Nat.add_comm]
    rw [h1, h]
    rfl

theorem memberList_cons (cfg : Config) (f : String × String × Ty)
    (fields : List (String × String × Ty)) (v0 : Val) (vs : List Val) :
    memberList cfg (f :: fields) (v0 :: vs) =
      (if (parseTag f.2.1).1 = "" then []
       else [((parseTag f.2.1).1,
              fieldOut cfg (parseTag f.2.1).2 f.2.2 v0)]) ++
        memberList cfg fields vs := by
  by_cases h : (parseTag f.2.1).1 = "" <;>
    simp [memberList, List.filterMap_cons, h]

theorem membersFlat_append (m : Nat) (ms1 ms2 : List (String × List Nat)) :
    membersFlat m (ms1 ++ ms2) =
      membersFlat m ms1 ++ membersFlat (m + ms1.length) ms2 := by
  induction ms1 generalizing m with
  | nil => simp [membersFlat]
  | cons a ms ih =>
      have h2 : m + 1 + ms.length = m + (ms.length + 1) := by omega
      simp [membersFlat, ih (m + 1), h2, List.append_assoc]

/-- The value instruction appended for one emitted struct field on the
default option path extends the pending text by the field's default
rendering (fieldOut with no options set). -/
theorem valueInst_ok (n : Nat) (cfg : Config)
    (IHslice : ∀ e2, sizeOf e2 ≤ n → SliceOK cfg e2)
    (IHstruct : ∀ fs, sizeOf fs ≤ n → StructOK cfg fs)
    (IHmap : ∀ k2 e2, sizeOf k2 + sizeOf e2 ≤ n → MapOK cfg k2 e2)
    (fty : Ty) (hszf : sizeOf fty ≤ n)
    (hsupf : structFieldTySupported fty = true) (fname : String)
    (st : CState) (vsAll : List Val) (pend : List Nat)
    (hinv : StInv st (.vstruct vsAll) pend) (v0 : Val)
    (hget : vsAll.getD st.idx Val.other = v0)
    (hconf : conforms v0 fty = true) :
    ∃ st2, valueInst cfg fty (derefKind fty) fname st = .ok st2 ∧
      StInv st2 (.vstruct vsAll) (pend ++ fieldOut cfg ("") fty v0) ∧
      st2.emit = st.emit ∧ st2.idx = st.idx := by
  have primNP : ∀ (k : Ty) (conv : Val → Buffer → Buffer),
      typeconv k = some conv →
      valueInst cfg k (derefKind k) fname st = .ok (val st conv) →
      fieldOut cfg ("") k v0 = primOut k v0 →
      ∃ st2, valueInst cfg k (derefKind k) fname st = .ok st2 ∧
        StInv st2 (.vstruct vsAll) (pend ++ fieldOut cfg ("") k v0) ∧
        st2.emit = st.emit ∧ st2.idx = st.idx := by
    intro k conv hck hcomp hfo
    refine ⟨val st conv, hcomp, ?_, rfl, rfl⟩
    have hi : ∀ w, ((fun v w => some (conv (getField v st.idx) w)) : Instr)
        (.vstruct vsAll) w = some (w ++ fieldOut cfg ("") k v0) := by
      intro w
      simp only [getField, hget]
      rw [typeconv_local hck, hfo]
    exact stInv_addInstr hi hinv
  have primP : ∀ (k : Ty) (conv : Val → Buffer → Buffer),
      typeconv k = some conv →
      valueInst cfg (.ptr k) (derefKind (.ptr k)) fname st =
        .ok (ptrval st conv) →
      (∀ q, fieldOut cfg ("") (.ptr k) (.vptr (some q)) = primOut k q) →
      (fieldOut cfg ("") (.ptr k) (.vptr none) = nullBytes) →
      conforms v0 (.ptr k) = true →
      ∃ st2, valueInst cfg (.ptr k) (derefKind (.ptr k)) fname st = .ok st2 ∧
        StInv st2 (.vstruct vsAll) (pend ++ fieldOut cfg ("") (.ptr k) v0) ∧
        st2.emit = st.emit ∧ st2.idx = st.idx := by
    intro k conv hck hcomp hfos hfon hcp
    refine ⟨ptrval st conv, hcomp, ?_, rfl, rfl⟩
    obtain ⟨p, hveq, hp⟩ := conforms_ptr hcp
    have hi : ∀ w, ((fun v w =>
        match getField v st.idx with
        | .vptr none => some (w ++ nullBytes)
        | .vptr (some q) => some (conv q w)
        | _ => none) : Instr) (.vstruct vsAll) w =
        some (w ++ fieldOut cfg ("") (.ptr k) v0) := by
      intro w
      subst hveq
      rcases hp with rfl | ⟨pv, rfl, hpv⟩
      · simp only [getField, hget]
        rw [hfon]
      · simp only [getField, hget]
        rw [hfos pv, typeconv_local hck]
    exact stInv_addInstr hi hinv
  cases fty with
  | bool =>
      exact primNP .bool ptrBoolToBuf rfl
        (by simp [valueInst, derefKind]) rfl
  | int =>
      exact primNP .int ptrIntToBuf rfl
        (by simp [valueInst, derefKind]) rfl
  | int8 =>
      exact primNP .int8 ptrIntToBuf rfl
        (by simp [valueInst, derefKind]) rfl
  | int16 =>
      exact primNP .int16 ptrIntToBuf rfl
        (by simp [valueInst, derefKind]) rfl
  | int32 =>
      exact primNP .int32 ptrIntToBuf rfl
        (by simp [valueInst, derefKind]) rfl
  | int64 =>
      exact primNP .int64 ptrIntToBuf rfl
        (by simp [valueInst, derefKind]) rfl
  | uint =>
      exact primNP .uint ptrUintToBuf rfl
        (by simp [valueInst, derefKind]) rfl
  | uint8 =>
      exact primNP .uint8 ptrUintToBuf rfl
        (by simp [valueInst, derefKind]) rfl
  | uint16 =>
      exact primNP .uint16 ptrUintToBuf rfl
        (by simp [valueInst, derefKind]) rfl
  | uint32 =>
      exact primNP .uint32 ptrUintToBuf rfl
        (by simp [valueInst, derefKind]) rfl
  | uint64 =>
      exact primNP .uint64 ptrUintToBuf rfl
        (by simp [valueInst, derefKind]) rfl
  | chan => simp [structFieldTySupported, supportedTy] at hsupf
  | func => simp [structFieldTySupported, supportedTy] at hsupf
  | complex64 => simp [structFieldTySupported, supportedTy] at hsupf
  | complex128 => simp [structFieldTySupported, supportedTy] at hsupf
  | string =>
      obtain ⟨s, rfl⟩ := conforms_string hconf
      refine ⟨_, (by simp [valueInst, derefKind] :
        valueInst cfg .string (derefKind .string) fname st =
          .ok (chunk (val (chunk st ("\"")) ptrStringToBuf) ("\""))),
        ?_, rfl, rfl⟩
      have h1 := stInv_chunk ("\"") hinv
      have hi : ∀ w, ((fun v w =>
          some (ptrStringToBuf (getField v st.idx) w)) : Instr)
          (.vstruct vsAll) w = some (w ++ strBytes s) := by
        intro w
        simp only [getField, ptrStringToBuf]
        rw [hget]
        simp [asStr]
      have h2 : StInv (val (chunk st ("\"")) ptrStringToBuf) (.vstruct vsAll)
          ((pend ++ strBytes ("\"")) ++ strBytes s) := stInv_addInstr hi h1
      have h3 := stInv_chunk ("\"") h2
      have hfo : fieldOut cfg ("") .string (.vstr s) =
          [34] ++ strBytes s ++ [34] := rfl
      rw [hfo]
      simpa [List.append_assoc] using h3
  | slice e =>
      have hsupE : supportedTy e = true := by
        simpa [structFieldTySupported, supportedTy] using hsupf
      have hsub : sizeOf e ≤ n := by
        simp only [Ty.slice.sizeOf_spec] at hszf
        omega
      obtain ⟨i2, hc2, hm2⟩ := IHslice e hsub hsupE
      obtain ⟨es, rfl, hes⟩ := conforms_slice hconf
      refine ⟨_, (by simp [valueInst, derefKind, hc2] :
        valueInst cfg (.slice e) (derefKind (.slice e)) fname st =
          .ok { flunk st with instrs := (flunk st).instrs ++
            [fun v w => sliceMarshal (some i2) (getField v st.idx) w] }),
        ?_, rfl, rfl⟩
      have hout := encOutput_slice hc2 (hm2 es hes)
      have hi : ∀ w,
          ((fun v w => sliceMarshal (some i2) (getField v st.idx) w) : Instr)
          (.vstruct vsAll) w =
          some (w ++ fieldOut cfg ("") (.slice e) (.vslice es)) := by
        intro w
        have hfo : fieldOut cfg ("") (.slice e) (.vslice es) =
            encOutput (.slice e) cfg (.vslice es) := rfl
        rw [hfo, hout]
        simp only [getField, hget, sliceMarshal]
        exact hm2 es hes w
      exact stInv_addInstr hi hinv
  | struct fs =>
      have hsupE : supportedFields fs = true := by
        simpa [structFieldTySupported, supportedTy] using hsupf
      have hsub : sizeOf fs ≤ n := by
        simp only [Ty.struct.sizeOf_spec] at hszf
        omega
      obtain ⟨is2, hc2, hm2⟩ := IHstruct fs hsub hsupE
      obtain ⟨vs0, rfl, hvs0⟩ := conforms_struct hconf
      refine ⟨_, (by simp [valueInst, derefKind, hc2] :
        valueInst cfg (.struct fs) (derefKind (.struct fs)) fname st =
          .ok { flunk st with instrs := (flunk st).instrs ++
            [fun v w => structMarshal is2 (getField v st.idx) w] }),
        ?_, rfl, rfl⟩
      have hout := encOutput_struct hc2 (hm2 vs0 hvs0)
      have hi : ∀ w,
          ((fun v w => structMarshal is2 (getField v st.idx) w) : Instr)
          (.vstruct vsAll) w =
          some (w ++ fieldOut cfg ("") (.struct fs) (.vstruct vs0)) := by
        intro w
        have hfo : fieldOut cfg ("") (.struct fs) (.vstruct vs0) =
            encOutput (.struct fs) cfg (.vstruct vs0) := rfl
        rw [hfo, hout]
        simp only [getField, hget]
        exact hm2 vs0 hvs0 w
      exact stInv_addInstr hi hinv
  | map mk me =>
      have hsupE : supportedKey mk = true ∧ supportedTy me = true := by
        have := hsupf
        simp only [structFieldTySupported, supportedTy,
          Bool.and_eq_true_iff] at this
        exact this
      have hsub : sizeOf mk + sizeOf me ≤ n := by
        simp only [Ty.map.sizeOf_spec] at hszf
        omega
      obtain ⟨i2, hc2, hm2⟩ := IHmap mk me hsub hsupE.1 hsupE.2
      obtain ⟨o2, rfl, _⟩ := conforms_map hconf
      refine ⟨_, (by simp [valueInst, derefKind, hc2] :
        valueInst cfg (.map mk me) (derefKind (.map mk me)) fname st =
          .ok { flunk st with instrs := (flunk st).instrs ++
            [fun v w => i2 (getField v st.idx) w] }),
        ?_, rfl, rfl⟩
      have hout := encOutput_map hc2 (hm2 o2 hconf)
      have hi : ∀ w,
          ((fun v w => i2 (getField v st.idx) w) : Instr)
          (.vstruct vsAll) w =
          some (w ++ fieldOut cfg ("") (.map mk me) (.vmap o2)) := by
        intro w
        have hfo : fieldOut cfg ("") (.map mk me) (.vmap o2) =
            encOutput (.map mk me) cfg (.vmap o2) := rfl
        rw [hfo, hout]
        simp only [getField, hget]
        exact hm2 o2 hconf w
      exact stInv_addInstr hi hinv
  | ptr inner =>
      cases inner with
      | bool =>
          exact primP .bool ptrBoolToBuf rfl
            (by simp [valueInst, derefKind]) (fun q => rfl) rfl hconf
      | int =>
          exact primP .int ptrIntToBuf rfl
            (by simp [valueInst, derefKind]) (fun q => rfl) rfl hconf
      | int8 =>
          exact primP .int8 ptrIntToBuf rfl
            (by simp [valueInst, derefKind]) (fun q => rfl) rfl hconf
      | int16 =>
          exact primP .int16 ptrIntToBuf rfl
            (by simp [valueInst, derefKind]) (fun q => rfl) rfl hconf
      | int32 =>
          exact primP .int32 ptrIntToBuf rfl
            (by simp [valueInst, derefKind]) (fun q => rfl) rfl hconf
      | int64 =>
          exact primP .int64 ptrIntToBuf rfl
            (by simp [valueInst, derefKind]) (fun q => rfl) rfl hconf
      | uint =>
          exact primP .uint ptrUintToBuf rfl
            (by simp [valueInst, derefKind]) (fun q => rfl) rfl hconf
      | uint8 =>
          exact primP .uint8 ptrUintToBuf rfl
            (by simp [valueInst, derefKind]) (fun q => rfl) rfl hconf
      | uint16 =>
          exact primP .uint16 ptrUintToBuf rfl
            (by simp [valueInst, derefKind]) (fun q => rfl) rfl hconf
      | uint32 =>
          exact primP .uint32 ptrUintToBuf rfl
            (by simp [valueInst, derefKind]) (fun q => rfl) rfl hconf
      | uint64 =>
          exact primP .uint64 ptrUintToBuf rfl
            (by simp [valueInst, derefKind]) (fun q => rfl) rfl hconf
      | slice e2 => simp [structFieldTySupported] at hsupf
      | ptr t2 =>
          simp [structFieldTySupported, supportedTy, supportedPtrInner]
            at hsupf
      | chan =>
          simp [structFieldTySupported, supportedTy, supportedPtrInner]
            at hsupf
      | func =>
          simp [structFieldTySupported, supportedTy, supportedPtrInner]
            at hsupf
      | complex64 =>
          simp [structFieldTySupported, supportedTy, supportedPtrInner]
            at hsupf
      | complex128 =>
          simp [structFieldTySupported, supportedTy, supportedPtrInner]
            at hsupf
      | string =>
          obtain ⟨p, hveq, hp⟩ := conforms_ptr hconf
          subst hveq
          refine ⟨_, (by simp [valueInst, derefKind] :
            valueInst cfg (.ptr .string) (derefKind (.ptr .string)) fname st =
              .ok (ptrstringval st ptrStringToBuf)), ?_, rfl, rfl⟩
          have hi : ∀ w, ((fun v w =>
              match getField v st.idx with
              | .vptr none => some (w ++ nullBytes)
              | .vptr (some q) => some (ptrStringToBuf q (w ++ [34]) ++ [34])
              | _ => none) : Instr) (.vstruct vsAll) w =
              some (w ++ fieldOut cfg ("") (.ptr .string) (.vptr p)) := by
            intro w
            rcases hp with rfl | ⟨pv, rfl, hpv⟩
            · simp only [getField, hget]
              rfl
            · simp only [getField, hget]
              have hfos : fieldOut cfg ("") (.ptr .string) (.vptr (some pv)) =
                  [34] ++ strBytes (asStr pv) ++ [34] := rfl
              rw [hfos]
              simp [ptrStringToBuf, List.append_assoc]
          exact stInv_addInstr hi hinv
      | struct fs =>
          have hsupE : supportedFields fs = true := by
            simpa [structFieldTySupported, supportedTy, supportedPtrInner]
              using hsupf
          have hsub : sizeOf fs ≤ n := by
            simp only [Ty.ptr.sizeOf_spec, Ty.struct.sizeOf_spec] at hszf
            omega
          obtain ⟨is2, hc2, hm2⟩ := IHstruct fs hsub hsupE
          obtain ⟨p, hveq, hp⟩ := conforms_ptr hconf
          subst hveq
          refine ⟨_, (by simp [valueInst, derefKind, hc2] :
            valueInst cfg (.ptr (.struct fs)) (derefKind (.ptr (.struct fs)))
                fname st =
              .ok { flunk st with instrs := (flunk st).instrs ++
                [fun v w =>
                  match getField v st.idx with
                  | .vptr none => some (w ++ nullBytes)
                  | .vptr (some q) => structMarshal is2 q w
                  | _ => none] }), ?_, rfl, rfl⟩
          have hi : ∀ w, ((fun v w =>
              match getField v st.idx with
              | .vptr none => some (w ++ nullBytes)
              | .vptr (some q) => structMarshal is2 q w
              | _ => none) : Instr) (.vstruct vsAll) w =
              some (w ++ fieldOut cfg ("") (.ptr (.struct fs)) (.vptr p)) := by
            intro w
            rcases hp with rfl | ⟨pv, rfl, hpv⟩
            · simp only [getField, hget]
              rfl
            · obtain ⟨vs0, rfl, hvs0⟩ := conforms_struct hpv
              have hfos : fieldOut cfg ("") (.ptr (.struct fs))
                  (.vptr (some (.vstruct vs0))) =
                  encOutput (.struct fs) cfg (.vstruct vs0) := rfl
              have hout := encOutput_struct hc2 (hm2 vs0 hvs0)
              simp only [getField, hget]
              rw [hfos, hout]
              exact hm2 vs0 hvs0 w
          exact stInv_addInstr hi hinv
      | map mk me =>
          have hsupE : supportedKey mk = true ∧ supportedTy me = true := by
            have := hsupf
            simp only [structFieldTySupported, supportedTy, supportedPtrInner,
              Bool.and_eq_true_iff] at this
            exact this
          have hsub : sizeOf mk + sizeOf me ≤ n := by
            simp only [Ty.ptr.sizeOf_spec, Ty.map.sizeOf_spec] at hszf
            omega
          obtain ⟨i2, hc2, hm2⟩ := IHmap mk me hsub hsupE.1 hsupE.2
          obtain ⟨p, hveq, hp⟩ := conforms_ptr hconf
          subst hveq
          refine ⟨_, (by simp [valueInst, derefKind, hc2] :
            valueInst cfg (.ptr (.map mk me)) (derefKind (.ptr (.map mk me)))
                fname st =
              .ok { flunk st with instrs := (flunk st).instrs ++
                [fun v w =>
                  match getField v st.idx with
                  | .vptr none => some (w ++ nullBytes)
                  | .vptr (some q) => i2 q w
                  | _ => none] }), ?_, rfl, rfl⟩
          have hi : ∀ w, ((fun v w =>
              match getField v st.idx with
              | .vptr none => some (w ++ nullBytes)
              | .vptr (some q) => i2 q w
              | _ => none) : Instr) (.vstruct vsAll) w =
              some (w ++ fieldOut cfg ("") (.ptr (.map mk me)) (.vptr p)) := by
            intro w
            rcases hp with rfl | ⟨pv, rfl, hpv⟩
            · simp only [getField, hget]
              rfl
            · obtain ⟨o2, rfl, _⟩ := conforms_map hpv
              have hfos : fieldOut cfg ("") (.ptr (.map mk me))
                  (.vptr (some (.vmap o2))) =
                  encOutput (.map mk me) cfg (.vmap o2) := rfl
              have hout := encOutput_map hc2 (hm2 o2 hpv)
              simp only [getField, hget]
              rw [hfos, hout]
              exact hm2 o2 hpv w
          exact stInv_addInstr hi hinv

/-- The pointer/value dispatch shared by the encoder and raw option
branches of the compile loop. -/
def fieldCase (conv : Val → Buffer → Buffer) (stc : CState) (fty : Ty) :
    CState :=
  match fty with
  | .ptr _ => ptrval stc conv
  | _ => val stc conv

theorem fieldCase_eq (conv : Val → Buffer → Buffer) (stc : CState)
    (fty : Ty) :
    (match fty with
     | .ptr _ => ptrval stc conv
     | _ => val stc conv) = fieldCase conv stc fty := by
  cases fty <;> rfl

/-- The encoder-option instruction writes the encoder rendering (null in
the modelled universe, since no shape implements JSONEncoder). -/
theorem encoderField_ok (cfg : Config) (fty : Ty) (stc : CState)
    (vsAll : List Val) (pendc : List Nat)
    (hinvc : StInv stc (.vstruct vsAll) pendc) (v0 : Val)
    (hget : vsAll.getD stc.idx Val.other = v0)
    (hconf : conforms v0 fty = true) (opts : tagOptions)
    (hs : (opts.Contains ("stringer") && hasStringMethod fty) = false)
    (henc : opts.Contains ("encoder") = true) :
    ∃ st2, fieldCase encoderConv stc fty = st2 ∧
      StInv st2 (.vstruct vsAll) (pendc ++ fieldOut cfg opts fty v0) ∧
      st2.emit = stc.emit ∧ st2.idx = stc.idx := by
  refine ⟨_, rfl, ?_⟩
  unfold fieldCase
  have hfo : fieldOut cfg opts fty v0 = encoderFieldOut fty v0 := by
    cases hraw : opts.Contains ("raw") <;>
      rw [fieldOut.eq_def, hs, henc, hraw]
  cases fty
  case ptr t =>
    obtain ⟨p, hveq, hp⟩ := conforms_ptr hconf
    refine ⟨?_, rfl, rfl⟩
    have hi : ∀ w, ((fun v w =>
        match getField v stc.idx with
        | .vptr none => some (w ++ nullBytes)
        | .vptr (some q) => some (encoderConv q w)
        | _ => none) : Instr) (.vstruct vsAll) w =
        some (w ++ fieldOut cfg opts (.ptr t) v0) := by
      intro w
      subst hveq
      rcases hp with rfl | ⟨pv, rfl, hpv⟩
      · simp only [getField, hget, hfo]
        rfl
      · simp only [getField, hget, hfo]
        simp [encoderFieldOut, encoderConv]
    exact stInv_addInstr hi hinvc
  all_goals
    exact ⟨stInv_addInstr
      (fun w => by
        simp only [getField, flunk_idx, hget, hfo]
        simp [encoderFieldOut, encoderConv]) hinvc, rfl, rfl⟩

/-- The raw-option instruction writes the field memory verbatim (null
when empty). -/
theorem rawField_ok (cfg : Config) (fty : Ty) (stc : CState)
    (vsAll : List Val) (pendc : List Nat)
    (hinvc : StInv stc (.vstruct vsAll) pendc) (v0 : Val)
    (hget : vsAll.getD stc.idx Val.other = v0)
    (hconf : conforms v0 fty = true) (opts : tagOptions)
    (hs : (opts.Contains ("stringer") && hasStringMethod fty) = false)
    (henc : opts.Contains ("encoder") = false)
    (hraw : opts.Contains ("raw") = true) :
    ∃ st2, fieldCase rawConv stc fty = st2 ∧
      StInv st2 (.vstruct vsAll) (pendc ++ fieldOut cfg opts fty v0) ∧
      st2.emit = stc.emit ∧ st2.idx = stc.idx := by
  refine ⟨_, rfl, ?_⟩
  unfold fieldCase
  have hfo : fieldOut cfg opts fty v0 = rawFieldOut fty v0 := by
    rw [fieldOut.eq_def, hs, henc, hraw]
  cases fty
  case ptr t =>
    obtain ⟨p, hveq, hp⟩ := conforms_ptr hconf
    refine ⟨?_, rfl, rfl⟩
    have hi : ∀ w, ((fun v w =>
        match getField v stc.idx with
        | .vptr none => some (w ++ nullBytes)
        | .vptr (some q) => some (rawConv q w)
        | _ => none) : Instr) (.vstruct vsAll) w =
        some (w ++ fieldOut cfg opts (.ptr t) v0) := by
      intro w
      subst hveq
      rcases hp with rfl | ⟨pv, rfl, hpv⟩
      · simp only [getField, hget, hfo]
        rfl
      · simp only [getField, hget, hfo]
        simp only [rawFieldOut]
        rw [rawConv_local]
    exact stInv_addInstr hi hinvc
  all_goals
    exact ⟨stInv_addInstr
      (fun w => by
        simp only [getField, flunk_idx, hget, hfo]
        simp only [rawFieldOut]
        rw [rawConv_local]) hinvc, rfl, rfl⟩

/-- Writing the comma separator (after the first emitted member) and the
quoted key chunk extends the pending text accordingly. -/
theorem keyChunk_inv {st : CState} {vsAll : List Val} {pend : List Nat}
    (hinv : StInv st (.vstruct vsAll) pend) (tag : String) :
    ∃ stc, (chunk (if st.emit + 1 > 1
        then chunk { st with emit := st.emit + 1 } (",")
        else { st with emit := st.emit + 1 })
      ("\"" ++ tag ++ "\":")) = stc ∧
      StInv stc (.vstruct vsAll)
        (pend ++ ((if st.emit + 1 > 1 then [44] else []) ++
          ([34] ++ strBytes tag ++ [34, 58]))) ∧
      stc.emit = st.emit + 1 ∧ stc.idx = st.idx := by
  refine ⟨_, rfl, ?_⟩
  have hkey : strBytes ("\"" ++ tag ++ "\":") =
      [34] ++ strBytes tag ++ [34, 58] := by
    rw [strBytes_append]
    simp [strBytes_append]
  by_cases hcm : st.emit + 1 > 1
  · have h1 : StInv (chunk { st with emit := st.emit + 1 } (","))
        (.vstruct vsAll) (pend ++ [44]) := by
      simpa using
        stInv_chunk (",")
          (hinv : StInv { st with emit := st.emit + 1 } (.vstruct vsAll) pend)
    have h2 := stInv_chunk ("\"" ++ tag ++ "\":") h1
    rw [hkey] at h2
    rw [if_pos hcm, if_pos hcm]
    exact ⟨by simpa [List.append_assoc] using h2, rfl, rfl⟩
  · have h2 := stInv_chunk ("\"" ++ tag ++ "\":")
      (hinv : StInv { st with emit := st.emit + 1 } (.vstruct vsAll) pend)
    rw [hkey] at h2
    rw [if_neg hcm, if_neg hcm]
    exact ⟨by simpa [List.append_assoc] using h2, rfl, rfl⟩

/-- The struct compile loop: walking the remaining fields extends the
pending text by their flattened members and advances the counters. -/
theorem structFields_ok (n : Nat) (cfg : Config)
    (IHslice : ∀ e2, sizeOf e2 ≤ n → SliceOK cfg e2)
    (IHstruct : ∀ fs, sizeOf fs ≤ n → StructOK cfg fs)
    (IHmap : ∀ k2 e2, sizeOf k2 + sizeOf e2 ≤ n → MapOK cfg k2 e2) :
    ∀ (fields : List (String × String × Ty)), sizeOf fields ≤ n + 1 →
    supportedFields fields = true →
    ∀ (vsAll vs : List Val) (st : CState) (pend : List Nat),
      StInv st (.vstruct vsAll) pend →
      vsAll.drop st.idx = vs →
      conformsFields vs fields = true →
      ∃ st2, structFields cfg fields st = .ok st2 ∧
        StInv st2 (.vstruct vsAll)
          (pend ++ membersFlat st.emit (memberList cfg fields vs)) ∧
        st2.emit = st.emit + (memberList cfg fields vs).length ∧
        st2.idx = st.idx + fields.length := by
  intro fields
  induction fields with
  | nil =>
      intro _ _ vsAll vs st pend hinv hdrop hconf
      refine ⟨st, by simp [structFields], ?_, by simp [memberList], by simp⟩
      simpa [memberList, membersFlat] using hinv
  | cons f rest ih =>
      intro hsz hsupfs vsAll vs st pend hinv hdrop hconf
      obtain ⟨fname, ftag, fty⟩ := f
      obtain ⟨hfld, hrest⟩ := supportedFields_cons hsupfs
      obtain ⟨v0, vs2, rfl, hcv0, hconf2⟩ := conformsFields_cons hconf
      obtain ⟨hget, hdrop2⟩ := drop_cons_getD hdrop
      have hszr : sizeOf rest ≤ n + 1 := by
        simp only [List.cons.sizeOf_spec] at hsz
        omega
      have hszf : sizeOf fty ≤ n := by
        simp only [List.cons.sizeOf_spec, Prod.mk.sizeOf_spec] at hsz
        omega
      by_cases htag : (parseTag ftag).1 = ""
      · -- tag name empty: the field is skipped entirely
        have hml : memberList cfg ((fname, ftag, fty) :: rest) (v0 :: vs2) =
            memberList cfg rest vs2 := by
          rw [memberList_cons]
          simp [htag]
        obtain ⟨st3, hrec, hinv3, hemit3, hidx3⟩ :=
          ih hszr hrest vsAll vs2 { st with idx := st.idx + 1 } pend hinv
            hdrop2 hconf2
        have hemit3a : st3.emit =
            st.emit + (memberList cfg rest vs2).length := hemit3
        have hidx3a : st3.idx = st.idx + 1 + rest.length := hidx3
        refine ⟨st3, ?_, ?_, ?_, ?_⟩
        · rw [structFields]
          simp [htag, hrec]
        · rw [hml]
          exact hinv3
        · rw [hml]
          exact hemit3a
        · simp only [List.length_cons]
          omega
      · -- the field is emitted
        have hml : memberList cfg ((fname, ftag, fty) :: rest) (v0 :: vs2) =
            ((parseTag ftag).1,
              fieldOut cfg (parseTag ftag).2 fty v0) ::
              memberList cfg rest vs2 := by
          rw [memberList_cons]
          simp [htag]
        obtain ⟨stc, hstc, hinvc, hemitc, hidxc⟩ :=
          keyChunk_inv hinv (parseTag ftag).1
        have hget2 : vsAll.getD stc.idx Val.other = v0 := by
          rw [hidxc]
          exact hget
        have hs0 : ((parseTag ftag).2.Contains ("stringer") &&
            hasStringMethod fty) = false := by
          simp [hasStringMethod]
        by_cases henc : (parseTag ftag).2.Contains ("encoder") = true
        · -- encoder option
          obtain ⟨st2, hbody, hinv2, hemit2, hidx2⟩ :=
            encoderField_ok cfg fty stc vsAll _ hinvc v0 hget2 hcv0
              (parseTag ftag).2 hs0 henc
          have hemit2a : st2.emit = st.emit + 1 := by rw [hemit2, hemitc]
          have hidx2a : st2.idx = st.idx := by rw [hidx2, hidxc]
          have hinv2b : StInv { st2 with idx := st2.idx + 1 }
              (.vstruct vsAll)
              ((pend ++ ((if st.emit + 1 > 1 then [44] else []) ++
                ([34] ++ strBytes (parseTag ftag).1 ++ [34, 58]))) ++
                fieldOut cfg (parseTag ftag).2 fty v0) := hinv2
          have hdrop2b : vsAll.drop ({ st2 with idx := st2.idx + 1 }).idx
              = vs2 := by
            show vsAll.drop (st2.idx + 1) = vs2
            rw [hidx2a]
            exact hdrop2
          obtain ⟨st3, hrec, hinv3, hemit3, hidx3⟩ :=
            ih hszr hrest vsAll vs2 { st2 with idx := st2.idx + 1 } _
              hinv2b hdrop2b hconf2
          have hemit3a : st3.emit =
              st2.emit + (memberList cfg rest vs2).length := hemit3
          have hidx3a : st3.idx = st2.idx + 1 + rest.length := hidx3
          refine ⟨st3, ?_, ?_, ?_, ?_⟩
          · rw [structFields]
            simp only [htag, if_false, ite_false, hasStringMethod,
              Bool.and_false, Bool.false_eq_true, henc, if_true, ite_true,
              exceptOkBind]
            rw [hstc, fieldCase_eq, hbody]
            simpa using hrec
          · rw [hml]
            simp only [membersFlat, strBytes_keyColon]
            have h3 := hinv3
            simp only [List.append_assoc] at h3 ⊢
            rw [hemit2a] at h3
            exact h3
          · rw [hml]
            simp only [List.length_cons]
            omega
          · simp only [List.length_cons]
            omega
        · rw [Bool.not_eq_true] at henc
          by_cases hraw : (parseTag ftag).2.Contains ("raw") = true
          · -- raw option
            obtain ⟨st2, hbody, hinv2, hemit2, hidx2⟩ :=
              rawField_ok cfg fty stc vsAll _ hinvc v0 hget2 hcv0
                (parseTag ftag).2 hs0 henc hraw
            have hemit2a : st2.emit = st.emit + 1 := by rw [hemit2, hemitc]
            have hidx2a : st2.idx = st.idx := by rw [hidx2, hidxc]
            have hinv2b : StInv { st2 with idx := st2.idx + 1 }
                (.vstruct vsAll)
                ((pend ++ ((if st.emit + 1 > 1 then [44] else []) ++
                  ([34] ++ strBytes (parseTag ftag).1 ++ [34, 58]))) ++
                  fieldOut cfg (parseTag ftag).2 fty v0) := hinv2
            have hdrop2b : vsAll.drop ({ st2 with idx := st2.idx + 1 }).idx
                = vs2 := by
              show vsAll.drop (st2.idx + 1) = vs2
              rw [hidx2a]
              exact hdrop2
            obtain ⟨st3, hrec, hinv3, hemit3, hidx3⟩ :=
              ih hszr hrest vsAll vs2 { st2 with idx := st2.idx + 1 } _
                hinv2b hdrop2b hconf2
            have hemit3a : st3.emit =
                st2.emit + (memberList cfg rest vs2).length := hemit3
            have hidx3a : st3.idx = st2.idx + 1 + rest.length := hidx3
            refine ⟨st3, ?_, ?_, ?_, ?_⟩
            · rw [structFields]
              simp only [htag, if_false, ite_false, hasStringMethod,
                Bool.and_false, Bool.false_eq_true, henc, hraw, if_true,
                ite_true, exceptOkBind]
              rw [hstc, fieldCase_eq, hbody]
              simpa using hrec
            · rw [hml]
              simp only [membersFlat, strBytes_keyColon]
              have h3 := hinv3
              simp only [List.append_assoc] at h3 ⊢
              rw [hemit2a] at h3
              exact h3
            · rw [hml]
              simp only [List.length_cons]
              omega
            · simp only [List.length_cons]
              omega
          · -- default: the kind-dispatched value instruction
            rw [Bool.not_eq_true] at hraw
            have hsupd : structFieldTySupported fty = true := by
              have := hfld
              rw [supportedField] at this
              simp only [htag, if_false, ite_false, henc, hraw] at this
              exact this
            obtain ⟨st2, hcomp, hinv2, hemit2, hidx2⟩ :=
              valueInst_ok n cfg IHslice IHstruct IHmap fty hszf hsupd fname
                stc vsAll _ hinvc v0 hget2 hcv0
            have hfo2 : fieldOut cfg ("") fty v0 =
                fieldOut cfg (parseTag ftag).2 fty v0 := by
              rw [fieldOut.eq_def, fieldOut.eq_def, hs0, henc, hraw]
              rfl
            have hemit2a : st2.emit = st.emit + 1 := by rw [hemit2, hemitc]
            have hidx2a : st2.idx = st.idx := by rw [hidx2, hidxc]
            have hinv2b : StInv { st2 with idx := st2.idx + 1 }
                (.vstruct vsAll)
                ((pend ++ ((if st.emit + 1 > 1 then [44] else []) ++
                  ([34] ++ strBytes (parseTag ftag).1 ++ [34, 58]))) ++
                  fieldOut cfg (parseTag ftag).2 fty v0) := by
              rw [← hfo2]
              exact hinv2
            have hdrop2b : vsAll.drop ({ st2 with idx := st2.idx + 1 }).idx
                = vs2 := by
              show vsAll.drop (st2.idx + 1) = vs2
              rw [hidx2a]
              exact hdrop2
            obtain ⟨st3, hrec, hinv3, hemit3, hidx3⟩ :=
              ih hszr hrest vsAll vs2 { st2 with idx := st2.idx + 1 } _
                hinv2b hdrop2b hconf2
            have hemit3a : st3.emit =
                st2.emit + (memberList cfg rest vs2).length := hemit3
            have hidx3a : st3.idx = st2.idx + 1 + rest.length := hidx3
            refine ⟨st3, ?_, ?_, ?_, ?_⟩
            · rw [structFields]
              simp only [htag, if_false, ite_false, hasStringMethod,
                Bool.and_false, Bool.false_eq_true, henc, hraw, exceptOkBind]
              rw [hstc, hcomp]
              simpa using hrec
            · rw [hml]
              simp only [membersFlat, strBytes_keyColon]
              have h3 := hinv3
              simp only [List.append_assoc] at h3 ⊢
              rw [hemit2a] at h3
              exact h3
            · rw [hml]
              simp only [List.length_cons]
              omega
            · simp only [List.length_cons]
              omega

mutual

/-- A canonical value of each shape (zero values; nil for pointers and
maps, empty for slices), used to witness that compilation of a supported
shape succeeds. -/
def defaultVal : Ty → Val
  | .bool => .vbool false
  | .int => .vint 0
  | .int8 => .vint 0
  | .int16 => .vint 0
  | .int32 => .vint 0
  | .int64 => .vint 0
  | .uint => .vuint 0
  | .uint8 => .vuint 0
  | .uint16 => .vuint 0
  | .uint32 => .vuint 0
  | .uint64 => .vuint 0
  | .string => .vstr ""
  | .ptr _ => .vptr none
  | .slice _ => .vslice []
  | .struct fs => .vstruct (defaultVals fs)
  | .map _ _ => .vmap none
  | .chan => .other
  | .func => .other
  | .complex64 => .other
  | .complex128 => .other
termination_by t => sizeOf t

/-- Canonical values for a field list. -/
def defaultVals : List (String × String × Ty) → List Val
  | [] => []
  | (_, _, t) :: fs => defaultVal t :: defaultVals fs
termination_by fs => sizeOf fs

end

theorem defaultVal_conforms_n : ∀ n : Nat,
    (∀ t, sizeOf t ≤ n → conforms (defaultVal t) t = true) ∧
    (∀ fs, sizeOf fs ≤ n → conformsFields (defaultVals fs) fs = true) := by
  intro n
  induction n with
  | zero =>
      constructor
      · intro t ht
        have := Ty_sizeOf_pos t
        omega
      · intro fs hfs
        have : 0 < sizeOf fs := by cases fs <;> simp_arith
        omega
  | succ m ihm =>
      constructor
      · intro t ht
        cases t with
        | struct fs =>
            have hsub : sizeOf fs ≤ m := by
              simp only [Ty.struct.sizeOf_spec] at ht
              omega
            rw [defaultVal]
            simpa [conforms] using ihm.2 fs hsub
        | bool => simp [defaultVal, conforms]
        | int => simp [defaultVal, conforms]
        | int8 => simp [defaultVal, conforms]
        | int16 => simp [defaultVal, conforms]
        | int32 => simp [defaultVal, conforms]
        | int64 => simp [defaultVal, conforms]
        | uint => simp [defaultVal, conforms]
        | uint8 => simp [defaultVal, conforms]
        | uint16 => simp [defaultVal, conforms]
        | uint32 => simp [defaultVal, conforms]
        | uint64 => simp [defaultVal, conforms]
        | string => simp [defaultVal, conforms]
        | ptr t2 => simp [defaultVal, conforms]
        | slice e => simp [defaultVal, conforms, conformsList]
        | map k e => simp [defaultVal, conforms]
        | chan => simp [defaultVal, conforms]
        | func => simp [defaultVal, conforms]
        | complex64 => simp [defaultVal, conforms]
        | complex128 => simp [defaultVal, conforms]
      · intro fs hfs
        cases fs with
        | nil => simp [defaultVals, conformsFields]
        | cons f rest =>
            obtain ⟨a, b, t⟩ := f
            have hst : sizeOf t ≤ m ∧ sizeOf rest ≤ m := by
              simp only [List.cons.sizeOf_spec, Prod.mk.sizeOf_spec] at hfs
              omega
            simp only [defaultVals, conformsFields]
            rw [ihm.1 t hst.1, ihm.2 rest hst.2]
            rfl

theorem defaultVals_conforms (fs : List (String × String × Ty)) :
    conformsFields (defaultVals fs) fs = true :=
  (defaultVal_conforms_n (sizeOf fs)).2 fs (Nat.le_refl _)

/-! ### Assembly: the struct compiler satisfies StructOK, given the
induction hypotheses for strictly smaller shapes. -/

theorem structOK_step (n : Nat) (cfg : Config)
    (IHslice : ∀ e2, sizeOf e2 ≤ n → SliceOK cfg e2)
    (IHstruct : ∀ fs, sizeOf fs ≤ n → StructOK cfg fs)
    (IHmap : ∀ k2 e2, sizeOf k2 + sizeOf e2 ≤ n → MapOK cfg k2 e2) :
    ∀ fields, sizeOf fields ≤ n + 1 → StructOK cfg fields := by
  intro fields hsz hsup
  have hinv0 : ∀ v, StInv
      ({ instrs := [], cb := [], cpos := 0, emit := 0, idx := 0 } : CState)
      v [] :=
    fun v => ⟨Nat.le_refl _, [], runsTo_nil v, rfl⟩
  have hinv0c : ∀ v, StInv
      (chunk { instrs := [], cb := [], cpos := 0, emit := 0, idx := 0 }
        ("\x7b")) v [123] := by
    intro v
    simpa using stInv_chunk ("\x7b") (hinv0 v)
  obtain ⟨stA, hcompA, _, _, _⟩ :=
    structFields_ok n cfg IHslice IHstruct IHmap fields hsz hsup
      (defaultVals fields) (defaultVals fields)
      (chunk { instrs := [], cb := [], cpos := 0, emit := 0, idx := 0 }
        ("\x7b")) [123] (hinv0c _) rfl (defaultVals_conforms fields)
  refine ⟨(flunk (chunk stA ("\x7d"))).instrs, ?_, ?_⟩
  · simp [NewStructEncoderWithConfig, hcompA]
  · intro vs hvs w
    obtain ⟨stB, hcompB, hinvB, hemitB, _⟩ :=
      structFields_ok n cfg IHslice IHstruct IHmap fields hsz hsup
        vs vs
        (chunk { instrs := [], cb := [], cpos := 0, emit := 0, idx := 0 }
          ("\x7b")) [123] (hinv0c _) rfl hvs
    obtain rfl : stA = stB := by
      injection hcompA.symm.trans hcompB
    have h1 := stInv_chunk ("\x7d") hinvB
    obtain ⟨⟨hle2, out, hrun, heq⟩, hdropE, _, _⟩ := stInv_flunk h1
    have hout : out = [123] ++ membersFlat 0 (memberList cfg fields vs)
        ++ [125] := by
      rw [hdropE, List.append_nil] at heq
      simpa [List.append_assoc] using heq
    rw [hrun w, hout]
    simp [jsonObjBytes, List.append_assoc]

/-! ### The master characterization, by strong induction on shape size -/

theorem encodersOK (cfg : Config) : ∀ n : Nat,
    (∀ fields, sizeOf fields ≤ n → StructOK cfg fields) ∧
    (∀ e, sizeOf e ≤ n → SliceOK cfg e) ∧
    (∀ k e, sizeOf k + sizeOf e ≤ n → MapOK cfg k e) := by
  intro n
  induction n with
  | zero =>
      refine ⟨?_, ?_, ?_⟩
      · intro fields h
        have : 0 < sizeOf fields := by cases fields <;> simp_arith
        omega
      · intro e h
        have := Ty_sizeOf_pos e
        omega
      · intro k e h
        have := Ty_sizeOf_pos k
        have := Ty_sizeOf_pos e
        omega
  | succ m ihm =>
      obtain ⟨ihS, ihL, ihM⟩ := ihm
      exact ⟨structOK_step m cfg ihL ihS ihM,
             sliceOK_step m cfg ihL ihS ihM,
             mapOK_step m cfg ihL ihS ihM⟩

theorem structOK_all (cfg : Config) (fields : List (String × String × Ty)) :
    StructOK cfg fields :=
  (encodersOK cfg (sizeOf fields)).1 fields (Nat.le_refl _)

theorem sliceOK_all (cfg : Config) (e : Ty) : SliceOK cfg e :=
  (encodersOK cfg (sizeOf e)).2.1 e (Nat.le_refl _)

theorem mapOK_all (cfg : Config) (k e : Ty) : MapOK cfg k e :=
  (encodersOK cfg (sizeOf k + sizeOf e)).2.2 k e (Nat.le_refl _)

/-! ### Order-theoretic facts about the rendered-key comparison -/

theorem lexLe_total : ∀ a b : List Nat, lexLe a b = true ∨ lexLe b a = true := by
  intro a
  induction a with
  | nil => intro b; left; rfl
  | cons x as ih =>
      intro b
      cases b with
      | nil => right; rfl
      | cons y bs =>
          rcases Nat.lt_trichotomy x y with h | h | h
          · left
            simp [lexLe, h]
          · subst h
            rcases ih bs with h2 | h2
            · left
              simp [lexLe, Nat.lt_irrefl, h2]
            · right
              simp [lexLe, Nat.lt_irrefl, h2]
          · right
            simp [lexLe, h]

theorem lexLe_trans : ∀ a b c : List Nat,
    lexLe a b = true → lexLe b c = true → lexLe a c = true := by
  intro a
  induction a with
  | nil => intro b c _ _; rfl
  | cons x as ih =>
      intro b c hab hbc
      cases b with
      | nil => simp [lexLe] at hab
      | cons y bs =>
          cases c with
          | nil => simp [lexLe] at hbc
          | cons z cs =>
              by_cases h1 : x < y
              · by_cases h2 : y < z
                · have h3 : x < z := Nat.lt_trans h1 h2
                  simp [lexLe, h3]
                · by_cases h4 : z < y
                  · simp [lexLe, h2, h4] at hbc
                  · have hyz : y = z := by omega
                    subst hyz
                    simp [lexLe, h1]
              · by_cases h4 : y < x
                · simp [lexLe, h1, h4] at hab
                · have hxy : x = y := by omega
                  subst hxy
                  simp only [lexLe, Nat.lt_irrefl, if_false, ite_false] at hab
                  by_cases h2 : x < z
                  · simp [lexLe, h2]
                  · by_cases h5 : z < x
                    · simp [lexLe, h2, h5] at hbc
                    · have hxz : x = z := by omega
                      subst hxz
                      simp only [lexLe, Nat.lt_irrefl, if_false,
                        ite_false] at hbc ⊢
                      exact ih bs cs hab hbc

theorem lexLe_antisymm : ∀ a b : List Nat,
    lexLe a b = true → lexLe b a = true → a = b := by
  intro a
  induction a with
  | nil =>
      intro b _ hba
      cases b with
      | nil => rfl
      | cons y bs => simp [lexLe] at hba
  | cons x as ih =>
      intro b hab hba
      cases b with
      | nil => simp [lexLe] at hab
      | cons y bs =>
          by_cases h1 : x < y
          · simp [lexLe, h1, Nat.lt_asymm h1] at hba
          · by_cases h2 : y < x
            · simp [lexLe, h1, h2] at hab
            · have hxy : x = y := by omega
              subst hxy
              simp only [lexLe, Nat.lt_irrefl, if_false, ite_false]
                at hab hba
              rw [ih bs hab hba]

instance : IsTotal (Buffer × Val) MapEncoder.keLe :=
  ⟨fun a b => lexLe_total a.1 b.1⟩

instance : IsTrans (Buffer × Val) MapEncoder.keLe :=
  ⟨fun a b c => lexLe_trans a.1 b.1 c.1⟩

/-- Two lists sorted by rendered-key order that are permutations of one
another and have pairwise-distinct key texts are equal. -/
theorem sorted_perm_nodup_eq : ∀ l1 l2 : List (Buffer × Val),
    l1.Perm l2 → l1.Sorted MapEncoder.keLe → l2.Sorted MapEncoder.keLe →
    (l1.map Prod.fst).Nodup → l1 = l2 := by
  intro l1
  induction l1 with
  | nil =>
      intro l2 hp _ _ _
      exact (List.Perm.nil_eq hp).symm ▸ rfl
  | cons a t1 ih =>
      intro l2 hp hs1 hs2 hnd
      cases l2 with
      | nil => exact absurd hp.symm (by simp)
      | cons b t2 =>
          have hab : a = b := by
            have hmem_a : a ∈ b :: t2 := hp.mem_iff.mp (by simp)
            have hmem_b : b ∈ a :: t1 := hp.mem_iff.mpr (by simp)
            rcases List.mem_cons.mp hmem_a with h | ha2
            · exact h
            rcases List.mem_cons.mp hmem_b with h | hb1
            · exact h.symm
            -- a sits in t2, b sits in t1; heads bound their tails
            have h1 : MapEncoder.keLe a b :=
              (List.sorted_cons.mp hs1).1 b hb1
            have h2 : MapEncoder.keLe b a :=
              (List.sorted_cons.mp hs2).1 a ha2
            have hkeys : a.1 = b.1 := lexLe_antisymm a.1 b.1 h1 h2
            have : a.1 ∈ t1.map Prod.fst := by
              rw [hkeys]
              exact List.mem_map_of_mem Prod.fst hb1
            exact absurd this (List.nodup_cons.mp hnd).1
          subst hab
          have hp2 : t1.Perm t2 := hp.cons_inv
          rw [ih t2 hp2 (List.sorted_cons.mp hs1).2
            (List.sorted_cons.mp hs2).2 (List.nodup_cons.mp hnd).2]

/-- Entry-wise conformance follows from member-wise conformance. -/
theorem conformsEntries_of_mem : ∀ (entries : List (Val × Val)) (k e : Ty),
    (∀ kv ∈ entries, conforms kv.1 k = true ∧ conforms kv.2 e = true) →
    conformsEntries entries k e = true := by
  intro entries k e
  induction entries with
  | nil => intro _; rw [conformsEntries]
  | cons kv rest ih =>
      intro h
      obtain ⟨a, b⟩ := kv
      rw [conformsEntries]
      have h1 := h (a, b) (by simp)
      rw [h1.1, h1.2, ih (fun x hx => h x (by simp [hx]))]
      rfl

/-- The emitted member keys are exactly the non-empty parsed tag names,
in declaration order. -/
theorem memberList_keys (cfg : Config) :
    ∀ (fields : List (String × String × Ty)) (vs : List Val),
    conformsFields vs fields = true →
    (memberList cfg fields vs).map Prod.fst =
      (fields.map (fun f => (parseTag f.2.1).1)).filter
        (fun t => !(t == "")) := by
  intro fields
  induction fields with
  | nil => intro vs _; rfl
  | cons f rest ih =>
      intro vs hconf
      obtain ⟨v0, vs2, rfl, _, hconf2⟩ := conformsFields_cons hconf
      rw [memberList_cons]
      by_cases htag : (parseTag f.2.1).1 = ""
      · simp [htag, List.filter_cons, ih vs2 hconf2]
      · simp [htag, List.filter_cons, ih vs2 hconf2]

@[simp] theorem exceptErrorBind {α β : Type} (e : String)
    (f : α → Except String β) :
    (Except.error e >>= f : Except String β) = .error e := rfl

/-! ### The claims -/

/-- C6: the boolean conversion is claimed to append exactly the bytes
"true" when the value read at the address is true and exactly "false"
when it is false.  The source of ptrBoolToBuf writes "true" and then
falls through to also write "false", so a true value renders as the
bytes of "truefalse": the claim holds for false but fails for true. -/
theorem claim6_bool_conversion_bug :
    (∀ b : Buffer, ptrBoolToBuf (.vbool false) b = b ++ bfalse) ∧
    (∀ b : Buffer, ptrBoolToBuf (.vbool true) b = b ++ (btrue ++ bfalse)) ∧
    btrue ++ bfalse ≠ btrue := by
  refine ⟨fun b => ?_, fun b => ?_, by decide⟩
  · simp [ptrBoolToBuf, asBool]
  · simp [ptrBoolToBuf, asBool]

/-- C5 (counterexample): constructing a slice encoder over an element
kind with no conversion entry (for example a channel) succeeds — the
source's otherInstr simply returns, leaving the instruction nil — yet
every subsequent Marshal call faults by invoking the nil instruction.
So construction success does not rule out runtime encode failure. -/
theorem claim5_counterexample :
    NewSliceEncoderWithConfig .chan DefaultConfig = .ok none ∧
    ∀ v w, sliceMarshal none v w = none := by
  constructor
  · simp [NewSliceEncoderWithConfig, typeconv]
  · intro v w
    rfl

/-- C5 (amended): for every fully supported shape — one whose
construction succeeds AND yields a non-nil instruction for every
reachable kind — Marshal never fails at runtime: it returns an appended
buffer for every conforming value.  (Shapes such as a slice of channels
construct successfully with a nil instruction and fault at Marshal, so
the amendment restricts the claim to the supported universe.) -/
theorem claim5_amended_no_runtime_failure (cfg : Config) (k e : Ty)
    (fields : List (String × String × Ty))
    (hf : supportedFields fields = true) (hk : supportedKey k = true)
    (he : supportedTy e = true) :
    (∃ is, NewStructEncoderWithConfig fields cfg = .ok is ∧
      ∀ vs, conformsFields vs fields = true →
      ∀ w, ∃ b, structMarshal is (.vstruct vs) w = some b) ∧
    (∃ i, NewSliceEncoderWithConfig e cfg = .ok (some i) ∧
      ∀ es, conformsList es e = true →
      ∀ w, ∃ b, i (.vslice es) w = some b) ∧
    (∃ i, NewMapEncoderWithConfig k e cfg = .ok i ∧
      ∀ o, conforms (.vmap o) (.map k e) = true →
      ∀ w, ∃ b, i (.vmap o) w = some b) := by
  obtain ⟨is, hcS, hmS⟩ := structOK_all cfg fields hf
  obtain ⟨iL, hcL, hmL⟩ := sliceOK_all cfg e he
  obtain ⟨iM, hcM, hmM⟩ := mapOK_all cfg k e hk he
  exact ⟨⟨is, hcS, fun vs hvs w => ⟨_, hmS vs hvs w⟩⟩,
         ⟨iL, hcL, fun es hes w => ⟨_, hmL es hes w⟩⟩,
         ⟨iM, hcM, fun o ho w => ⟨_, hmM o ho w⟩⟩⟩

/-- C5 (amended) witness: a struct of one text field, a slice of text
and a text-to-text map are fully supported, so the amended claim applies
to them. -/
theorem claim5_amended_no_runtime_failure_witness :
    (supportedFields [("A", "a", Ty.string)] = true ∧
     supportedKey Ty.string = true ∧ supportedTy Ty.string = true) ∧
    ((∃ is, NewStructEncoderWithConfig [("A", "a", Ty.string)]
        DefaultConfig = .ok is ∧
      ∀ vs, conformsFields vs [("A", "a", Ty.string)] = true →
      ∀ w, ∃ b, structMarshal is (.vstruct vs) w = some b) ∧
    (∃ i, NewSliceEncoderWithConfig Ty.string DefaultConfig =
        .ok (some i) ∧
      ∀ es, conformsList es Ty.string = true →
      ∀ w, ∃ b, i (.vslice es) w = some b) ∧
    (∃ i, NewMapEncoderWithConfig Ty.string Ty.string DefaultConfig =
        .ok i ∧
      ∀ o, conforms (.vmap o) (.map .string .string) = true →
      ∀ w, ∃ b, i (.vmap o) w = some b)) := by
  have hf : supportedFields [("A", "a", Ty.string)] = true := by
    rw [supportedFields, supportedField]
    simp [structFieldTySupported, supportedTy, supportedFields,
      show (parseTag ("a")).1 = "a" from by decide,
      show (parseTag ("a")).2.Contains ("encoder") = false from by decide,
      show (parseTag ("a")).2.Contains ("raw") = false from by decide]
  have hk : supportedKey Ty.string = true := rfl
  have he : supportedTy Ty.string = true := by simp [supportedTy]
  exact ⟨⟨hf, hk, he⟩,
    claim5_amended_no_runtime_failure DefaultConfig .string .string
      [("A", "a", Ty.string)] hf hk he⟩

/-- C7: a struct field whose kind (after dereferencing one pointer
level) is a channel, function or complex number aborts construction
with the error "unsupported type " followed by the kind name and the
field name, with no encoder returned; the compiler is a pure function,
so compiling the same shape twice produces this identical error.  The
last conjunct shows the abort also fires after earlier supported fields
were compiled. -/
theorem claim7_unsupported_field_compile_error (cfg : Config)
    (fname gname : String) :
    (NewStructEncoderWithConfig [(fname, "x", .chan)] cfg =
      .error ("unsupported type " ++ kindName .chan ++ fname)) ∧
    (NewStructEncoderWithConfig [(fname, "x", .func)] cfg =
      .error ("unsupported type " ++ kindName .func ++ fname)) ∧
    (NewStructEncoderWithConfig [(fname, "x", .complex64)] cfg =
      .error ("unsupported type " ++ kindName .complex64 ++ fname)) ∧
    (NewStructEncoderWithConfig [(fname, "x", .complex128)] cfg =
      .error ("unsupported type " ++ kindName .complex128 ++ fname)) ∧
    (NewStructEncoderWithConfig
        [(gname, "g", .int), (fname, "x", .chan)] cfg =
      .error ("unsupported type " ++ kindName .chan ++ fname)) := by
  have hx1 : ¬((parseTag ("x")).1 = "") := by decide
  have hx3 : (parseTag ("x")).2.Contains ("stringer") = false := by decide
  have hx4 : (parseTag ("x")).2.Contains ("encoder") = false := by decide
  have hx5 : (parseTag ("x")).2.Contains ("raw") = false := by decide
  have hg1 : ¬((parseTag ("g")).1 = "") := by decide
  have hg3 : (parseTag ("g")).2.Contains ("stringer") = false := by decide
  have hg4 : (parseTag ("g")).2.Contains ("encoder") = false := by decide
  have hg5 : (parseTag ("g")).2.Contains ("raw") = false := by decide
  refine ⟨?_, ?_, ?_, ?_, ?_⟩ <;>
    simp [NewStructEncoderWithConfig, structFields, valueInst, derefKind,
      hx1, hx3, hx4, hx5, hg1, hg3, hg4, hg5]

/-- C10: a field whose json tag name is "-" is NOT excluded: parseTag
gives it the non-empty name "-", so it is emitted as a member with the
literal key "-" (byte 45); only a field whose tag parses to an empty
name is skipped, shown by its empty member list. -/
theorem claim10_dash_tag_included (cfg : Config) (fname gname : String)
    (i : Int) (v2 : Val) :
    (parseTag ("-")).1 = "-" ∧
    (∃ is, NewStructEncoderWithConfig [(fname, "-", .int)] cfg = .ok is ∧
      ∀ w, structMarshal is (.vstruct [.vint i]) w =
        some (w ++ ([123] ++ ([34, 45, 34, 58] ++
          primOut .int (.vint i)) ++ [125]))) ∧
    memberList cfg [(gname, "", .int)] [v2] = [] := by
  have hd1 : (parseTag ("-")).1 = "-" := by decide
  have hd2 : ¬((parseTag ("-")).1 = "") := by decide
  have hd3 : (parseTag ("-")).2.Contains ("stringer") = false := by decide
  have hd4 : (parseTag ("-")).2.Contains ("encoder") = false := by decide
  have hd5 : (parseTag ("-")).2.Contains ("raw") = false := by decide
  have he1 : (parseTag ("")).1 = "" := by decide
  refine ⟨hd1, ?_, ?_⟩
  · have hf : supportedFields [(fname, "-", .int)] = true := by
      rw [supportedFields, supportedField]
      simp [hd2, hd4, hd5, structFieldTySupported, supportedTy,
        supportedFields]
    obtain ⟨is, hc, hm⟩ := structOK_all cfg [(fname, "-", .int)] hf
    have hcf : conformsFields [.vint i] [(fname, "-", .int)] = true := by
      rw [conformsFields]
      simp [conforms, conformsFields]
    refine ⟨is, hc, fun w => ?_⟩
    rw [hm [.vint i] hcf w]
    have hfo : fieldOut cfg (parseTag ("-")).2 .int (.vint i) =
        primOut .int (.vint i) := by
      rw [fieldOut.eq_def, hd3, hd4, hd5]
      simp [hasStringMethod, defaultFieldOut]
    simp [jsonObjBytes, memberList_cons, memberList, hd2, membersFlat,
      hfo, hd1, show strBytes ("-") = [45] from by decide,
      List.append_assoc]
  · simp [memberList, he1]

/-- C1: for every supported struct shape the compiled Marshal writes a
JSON object whose members are exactly the fields with a non-empty parsed
tag name (the recognized inclusion marker), each once, in declaration
order: the output is the object over memberList — the declaration-order
filterMap keeping exactly those fields — and the emitted key sequence
equals the declaration-order tag names with the empty ones removed. -/
theorem claim1_struct_members_exact (cfg : Config)
    (fields : List (String × String × Ty))
    (hsup : supportedFields fields = true) :
    ∃ is, NewStructEncoderWithConfig fields cfg = .ok is ∧
      ∀ vs, conformsFields vs fields = true →
      (∀ w, structMarshal is (.vstruct vs) w =
        some (w ++ jsonObjBytes (memberList cfg fields vs))) ∧
      (memberList cfg fields vs).map Prod.fst =
        (fields.map (fun f => (parseTag f.2.1).1)).filter
          (fun t => !(t == "")) := by
  obtain ⟨is, hc, hm⟩ := structOK_all cfg fields hsup
  exact ⟨is, hc, fun vs hvs =>
    ⟨hm vs hvs, memberList_keys cfg fields vs hvs⟩⟩

/-- C1 witness: a three-field record whose middle field carries no tag
name is supported, so the characterization applies to it. -/
theorem claim1_struct_members_exact_witness :
    supportedFields [("Name", "name", Ty.string), ("Skip", "", Ty.bool),
      ("Age", "age", Ty.int)] = true ∧
    (∃ is, NewStructEncoderWithConfig
        [("Name", "name", Ty.string), ("Skip", "", Ty.bool),
         ("Age", "age", Ty.int)] DefaultConfig = .ok is ∧
      ∀ vs, conformsFields vs [("Name", "name", Ty.string),
          ("Skip", "", Ty.bool), ("Age", "age", Ty.int)] = true →
      (∀ w, structMarshal is (.vstruct vs) w =
        some (w ++ jsonObjBytes (memberList DefaultConfig
          [("Name", "name", Ty.string), ("Skip", "", Ty.bool),
           ("Age", "age", Ty.int)] vs))) ∧
      (memberList DefaultConfig [("Name", "name", Ty.string),
          ("Skip", "", Ty.bool), ("Age", "age", Ty.int)] vs).map
          Prod.fst =
        ([("Name", "name", Ty.string), ("Skip", "", Ty.bool),
          ("Age", "age", Ty.int)].map
            (fun f => (parseTag f.2.1).1)).filter
          (fun t => !(t == ""))) := by
  have hf : supportedFields [("Name", "name", Ty.string),
      ("Skip", "", Ty.bool), ("Age", "age", Ty.int)] = true := by
    rw [supportedFields, supportedField, supportedFields, supportedField,
      supportedFields, supportedField]
    simp [structFieldTySupported, supportedTy, supportedFields,
      show (parseTag ("name")).1 = "name" from by decide,
      show (parseTag ("name")).2.Contains ("encoder") = false from by
        decide,
      show (parseTag ("name")).2.Contains ("raw") = false from by decide,
      show (parseTag ("")).1 = "" from by decide,
      show (parseTag ("age")).1 = "age" from by decide,
      show (parseTag ("age")).2.Contains ("encoder") = false from by
        decide,
      show (parseTag ("age")).2.Contains ("raw") = false from by decide]
  exact ⟨hf, claim1_struct_members_exact DefaultConfig _ hf⟩

/-- C2: a nil pointer element renders as the literal null; a present
sequence with zero elements renders as the two bytes of a bracket pair,
never null; a nil mapping renders null while a present-but-empty mapping
renders as a brace pair — for every configuration, so in both the
ordered and unordered map modes. -/
theorem claim2_null_absent_empty_collections (cfg : Config) (k e t : Ty)
    (hkey : supportedKey k = true) (hsupE : supportedTy e = true)
    (hsupP : supportedTy (.ptr t) = true) :
    (∃ i, NewSliceEncoderWithConfig (.ptr t) cfg = .ok (some i) ∧
      ∀ w, i (.vslice [.vptr none]) w =
        some (w ++ ([91] ++ nullBytes ++ [93]))) ∧
    (∃ i, NewSliceEncoderWithConfig e cfg = .ok (some i) ∧
      ∀ w, i (.vslice []) w = some (w ++ [91, 93])) ∧
    (∃ i, NewMapEncoderWithConfig k e cfg = .ok i ∧
      (∀ w, i (.vmap none) w = some (w ++ nullBytes)) ∧
      (∀ w, i (.vmap (some [])) w = some (w ++ [123, 125]))) := by
  refine ⟨?_, ?_, ?_⟩
  · obtain ⟨i, hc, hm⟩ := sliceOK_all cfg (.ptr t) hsupP
    have hcl : conformsList [.vptr none] (.ptr t) = true := by
      simp [conformsList, conforms]
    refine ⟨i, hc, fun w => ?_⟩
    rw [hm _ hcl w]
    simp [sliceOutBytes, elemsFlat, elemOut]
  · obtain ⟨i, hc, hm⟩ := sliceOK_all cfg e hsupE
    have hcl : conformsList [] e = true := by simp [conformsList]
    refine ⟨i, hc, fun w => ?_⟩
    rw [hm _ hcl w]
    simp [sliceOutBytes, elemsFlat]
  · obtain ⟨i, hc, hm⟩ := mapOK_all cfg k e hkey hsupE
    refine ⟨i, hc, fun w => ?_, fun w => ?_⟩
    · rw [hm none (by simp [conforms]) w]
      simp [mapOutBytes]
    · rw [hm (some []) (by simp [conforms, conformsEntries]) w]
      simp [mapOutBytes]
      rw [emptyObj_eq]

/-- C2 witness: text shapes instantiate every part of the claim in the
default (unordered) configuration. -/
theorem claim2_null_absent_empty_collections_witness :
    (supportedKey Ty.string = true ∧ supportedTy Ty.string = true ∧
     supportedTy (.ptr .string) = true) ∧
    ((∃ i, NewSliceEncoderWithConfig (.ptr .string) DefaultConfig =
        .ok (some i) ∧
      ∀ w, i (.vslice [.vptr none]) w =
        some (w ++ ([91] ++ nullBytes ++ [93]))) ∧
    (∃ i, NewSliceEncoderWithConfig Ty.string DefaultConfig =
        .ok (some i) ∧
      ∀ w, i (.vslice []) w = some (w ++ [91, 93])) ∧
    (∃ i, NewMapEncoderWithConfig Ty.string Ty.string DefaultConfig =
        .ok i ∧
      (∀ w, i (.vmap none) w = some (w ++ nullBytes)) ∧
      (∀ w, i (.vmap (some [])) w = some (w ++ [123, 125])))) := by
  have hk : supportedKey Ty.string = true := rfl
  have he : supportedTy Ty.string = true := by simp [supportedTy]
  have hp : supportedTy (.ptr .string) = true := by
    simp [supportedTy, supportedPtrInner]
  exact ⟨⟨hk, he, hp⟩,
    claim2_null_absent_empty_collections DefaultConfig .string .string
      .string hk he hp⟩

/-- C8: a raw-tagged field's member value is the field's byte/text
content verbatim — unquoted and unescaped — and when that content has
zero length the literal null is written instead of an empty token. -/
theorem claim8_raw_verbatim_or_null (cfg : Config) (fname ftag : String)
    (fty : Ty) (v : Val)
    (htag : ¬((parseTag ftag).1 = ""))
    (henc : (parseTag ftag).2.Contains ("encoder") = false)
    (hraw : (parseTag ftag).2.Contains ("raw") = true)
    (hnp : ∀ t2, fty ≠ .ptr t2)
    (hrok : rawOK fty = true)
    (hconf : conforms v fty = true) :
    ∃ is, NewStructEncoderWithConfig [(fname, ftag, fty)] cfg = .ok is ∧
      ∀ w, structMarshal is (.vstruct [v]) w =
        some (w ++ ([123] ++ ([34] ++ strBytes (parseTag ftag).1 ++
          [34, 58] ++
          (if (valBytes v).isEmpty then nullBytes else valBytes v)) ++
          [125])) := by
  have hs0 : ((parseTag ftag).2.Contains ("stringer") &&
      hasStringMethod fty) = false := by
    simp [hasStringMethod]
  have hf : supportedFields [(fname, ftag, fty)] = true := by
    rw [supportedFields, supportedField]
    simp [htag, henc, hraw, hrok, supportedFields]
  obtain ⟨is, hc, hm⟩ := structOK_all cfg [(fname, ftag, fty)] hf
  have hcf : conformsFields [v] [(fname, ftag, fty)] = true := by
    rw [conformsFields]
    simp [hconf, conformsFields]
  refine ⟨is, hc, fun w => ?_⟩
  rw [hm [v] hcf w]
  have hfo : fieldOut cfg (parseTag ftag).2 fty v =
      (if (valBytes v).isEmpty then nullBytes else valBytes v) := by
    rw [fieldOut.eq_def, hs0, henc, hraw]
    have hplain : rawFieldOut fty v = rawConv v [] := by
      cases fty with
      | ptr t2 => exact absurd rfl (hnp t2)
      | bool => rfl
      | int => rfl
      | int8 => rfl
      | int16 => rfl
      | int32 => rfl
      | int64 => rfl
      | uint => rfl
      | uint8 => rfl
      | uint16 => rfl
      | uint32 => rfl
      | uint64 => rfl
      | string => rfl
      | slice e2 => rfl
      | struct fs => rfl
      | map mk me => rfl
      | chan => rfl
      | func => rfl
      | complex64 => rfl
      | complex128 => rfl
    rw [hplain]
    unfold rawConv
    by_cases hve : (valBytes v).isEmpty <;> simp [hve]
  simp [jsonObjBytes, memberList_cons, memberList, htag, membersFlat,
    hfo, List.append_assoc]

/-- C8 witness: a raw text field holding zero-length content renders as
null (the spec's verbatim-empty scenario shape). -/
theorem claim8_raw_verbatim_or_null_witness :
    (¬((parseTag ("r,raw")).1 = "") ∧
     (parseTag ("r,raw")).2.Contains ("encoder") = false ∧
     (parseTag ("r,raw")).2.Contains ("raw") = true ∧
     rawOK Ty.string = true ∧
     conforms (.vstr "") Ty.string = true) ∧
    (∃ is, NewStructEncoderWithConfig [("R", "r,raw", Ty.string)]
        DefaultConfig = .ok is ∧
      ∀ w, structMarshal is (.vstruct [.vstr ""]) w =
        some (w ++ ([123] ++ ([34] ++ strBytes (parseTag ("r,raw")).1 ++
          [34, 58] ++
          (if (valBytes (.vstr "")).isEmpty then nullBytes
           else valBytes (.vstr ""))) ++ [125]))) := by
  have h1 : ¬((parseTag ("r,raw")).1 = "") := by decide
  have h2 : (parseTag ("r,raw")).2.Contains ("encoder") = false := by
    decide
  have h3 : (parseTag ("r,raw")).2.Contains ("raw") = true := by decide
  have h4 : rawOK Ty.string = true := rfl
  have h5 : conforms (.vstr "") Ty.string = true := by simp [conforms]
  exact ⟨⟨h1, h2, h3, h4, h5⟩,
    claim8_raw_verbatim_or_null DefaultConfig "R" "r,raw" .string
      (.vstr "") h1 h2 h3 (fun t2 h => Ty.noConfusion h) h4 h5⟩

/-- C9: every Marshal of a compiled struct, slice or map encoder only
appends: for each conforming value there are output bytes, independent
of the buffer, such that running the instruction on any buffer returns
that buffer unchanged with the output appended — the prior contents are
a prefix of the result.  The configuration is arbitrary, so this covers
the sorted mapping mode, whose first-pass key bytes are spliced back out
inside sortInstr before it returns. -/
theorem claim9_marshal_append_only (cfg : Config) (k e : Ty)
    (fields : List (String × String × Ty))
    (hf : supportedFields fields = true) (hk : supportedKey k = true)
    (he : supportedTy e = true) :
    (∃ is, NewStructEncoderWithConfig fields cfg = .ok is ∧
      ∀ vs, conformsFields vs fields = true →
      ∃ out, ∀ w, structMarshal is (.vstruct vs) w = some (w ++ out)) ∧
    (∃ i, NewSliceEncoderWithConfig e cfg = .ok (some i) ∧
      ∀ es, conformsList es e = true →
      ∃ out, ∀ w, i (.vslice es) w = some (w ++ out)) ∧
    (∃ i, NewMapEncoderWithConfig k e cfg = .ok i ∧
      ∀ o, conforms (.vmap o) (.map k e) = true →
      ∃ out, ∀ w, i (.vmap o) w = some (w ++ out)) := by
  obtain ⟨is, hcS, hmS⟩ := structOK_all cfg fields hf
  obtain ⟨iL, hcL, hmL⟩ := sliceOK_all cfg e he
  obtain ⟨iM, hcM, hmM⟩ := mapOK_all cfg k e hk he
  exact ⟨⟨is, hcS, fun vs hvs => ⟨_, hmS vs hvs⟩⟩,
         ⟨iL, hcL, fun es hes => ⟨_, hmL es hes⟩⟩,
         ⟨iM, hcM, fun o ho => ⟨_, hmM o ho⟩⟩⟩

/-- C9 witness: the frame property instantiated at an int-keyed sorted
map, a slice of text and a one-field record under the sorted
configuration, which exercises the splicing sortInstr path. -/
theorem claim9_marshal_append_only_witness :
    (supportedFields [("N", "n", Ty.int)] = true ∧
     supportedKey Ty.int = true ∧ supportedTy Ty.string = true) ∧
    ((∃ is, NewStructEncoderWithConfig [("N", "n", Ty.int)]
        SortedConfig = .ok is ∧
      ∀ vs, conformsFields vs [("N", "n", Ty.int)] = true →
      ∃ out, ∀ w, structMarshal is (.vstruct vs) w = some (w ++ out)) ∧
    (∃ i, NewSliceEncoderWithConfig Ty.string SortedConfig =
        .ok (some i) ∧
      ∀ es, conformsList es Ty.string = true →
      ∃ out, ∀ w, i (.vslice es) w = some (w ++ out)) ∧
    (∃ i, NewMapEncoderWithConfig Ty.int Ty.string SortedConfig =
        .ok i ∧
      ∀ o, conforms (.vmap o) (.map .int .string) = true →
      ∃ out, ∀ w, i (.vmap o) w = some (w ++ out))) := by
  have hf : supportedFields [("N", "n", Ty.int)] = true := by
    rw [supportedFields, supportedField]
    simp [structFieldTySupported, supportedTy, supportedFields,
      show (parseTag ("n")).1 = "n" from by decide,
      show (parseTag ("n")).2.Contains ("encoder") = false from by decide,
      show (parseTag ("n")).2.Contains ("raw") = false from by decide]
  have hk : supportedKey Ty.int = true := rfl
  have he : supportedTy Ty.string = true := by simp [supportedTy]
  exact ⟨⟨hf, hk, he⟩,
    claim9_marshal_append_only SortedConfig .int .string
      [("N", "n", Ty.int)] hf hk he⟩

/-- C3: in sorted mode a non-empty map emits the object over the
rendered-key records arranged by insertion sort under keLe — byte-wise
lexicographic comparison of the rendered key text, not the original
typed value — so the emitted record list is sorted in that order and is
a permutation of the records in iteration order. -/
theorem claim3_sorted_map_lex_order (cfg : Config)
    (hcfg : cfg.SortMapKeys = true) (k e : Ty)
    (hkey : supportedKey k = true) (hsup : supportedTy e = true)
    (entries : List (Val × Val))
    (hconf : conformsEntries entries k e = true)
    (hne : entries ≠ []) :
    ∃ i, NewMapEncoderWithConfig k e cfg = .ok i ∧
      (List.insertionSort MapEncoder.keLe
        (entries.map (fun kv => (primOut k kv.1, kv.2)))).Sorted
          MapEncoder.keLe ∧
      (List.insertionSort MapEncoder.keLe
        (entries.map (fun kv => (primOut k kv.1, kv.2)))).Perm
        (entries.map (fun kv => (primOut k kv.1, kv.2))) ∧
      ∀ w, i (.vmap (some entries)) w =
        some (w ++ ([123] ++ mapMembersFlat cfg e true
          (List.insertionSort MapEncoder.keLe
            (entries.map (fun kv => (primOut k kv.1, kv.2)))) ++
          [125])) := by
  obtain ⟨i, hc, hm⟩ := mapOK_all cfg k e hkey hsup
  refine ⟨i, hc, List.sorted_insertionSort _ _,
    List.perm_insertionSort _ _, fun w => ?_⟩
  have hcm : conforms (.vmap (some entries)) (.map k e) = true := by
    simp [conforms, hconf]
  rw [hm (some entries) hcm w]
  have hlen : ¬(entries.length = 0) := by
    simpa [List.length_eq_zero] using hne
  simp [mapOutBytes, hcfg, hlen]

/-- C3 witness: the spec scenario — the text-to-text map with keys
"bb", "cc", "aa" in iteration order encodes, in sorted mode, to exactly
the object text with the keys in ascending order. -/
theorem claim3_sorted_map_lex_order_witness :
    (SortedConfig.SortMapKeys = true ∧
     supportedKey Ty.string = true ∧ supportedTy Ty.string = true ∧
     conformsEntries [(.vstr "bb", .vstr "678"), (.vstr "cc", .vstr "345"),
       (.vstr "aa", .vstr "123")] .string .string = true ∧
     [((.vstr "bb" : Val), (.vstr "678" : Val)),
      (.vstr "cc", .vstr "345"), (.vstr "aa", .vstr "123")] ≠ []) ∧
    (∃ i, NewMapEncoderWithConfig .string .string SortedConfig = .ok i ∧
      i (.vmap (some [(.vstr "bb", .vstr "678"), (.vstr "cc", .vstr "345"),
        (.vstr "aa", .vstr "123")])) [] =
      some (strBytes
        ("\x7b\"aa\":\"123\",\"bb\":\"678\",\"cc\":\"345\"\x7d"))) := by
  have h1 : SortedConfig.SortMapKeys = true := by decide
  have h2 : supportedKey Ty.string = true := rfl
  have h3 : supportedTy Ty.string = true := by simp [supportedTy]
  have h4 : conformsEntries [((.vstr "bb" : Val), (.vstr "678" : Val)),
      (.vstr "cc", .vstr "345"), (.vstr "aa", .vstr "123")]
      .string .string = true := by
    simp [conformsEntries, conforms]
  have h5 : [((.vstr "bb" : Val), (.vstr "678" : Val)),
      (.vstr "cc", .vstr "345"), (.vstr "aa", .vstr "123")] ≠ [] := by
    simp
  obtain ⟨i, hc, _, _, hrun⟩ :=
    claim3_sorted_map_lex_order SortedConfig h1 .string .string h2 h3
      [(.vstr "bb", .vstr "678"), (.vstr "cc", .vstr "345"),
       (.vstr "aa", .vstr "123")] h4 h5
  refine ⟨⟨h1, h2, h3, h4, h5⟩, i, hc, ?_⟩
  rw [hrun []]
  rfl

/-- C4: with sorted keys enabled and pairwise-distinct rendered key
text, the same compiled map instruction produces byte-identical output
on any two iteration orders of the same entries; with sorting disabled
the output is the object listing every entry exactly once, in the
iteration order the map handed over. -/
theorem claim4_sorted_determinism_unsorted_coverage
    (cfgS cfgU : Config) (hS : cfgS.SortMapKeys = true)
    (hU : cfgU.SortMapKeys = false) (k e : Ty)
    (hkey : supportedKey k = true) (hsup : supportedTy e = true)
    (entries1 entries2 : List (Val × Val))
    (hperm : entries1.Perm entries2)
    (hconf : conformsEntries entries1 k e = true)
    (hnd : (entries1.map (fun kv => primOut k kv.1)).Nodup)
    (hne : entries1 ≠ []) :
    (∃ i, NewMapEncoderWithConfig k e cfgS = .ok i ∧
      ∀ w, i (.vmap (some entries1)) w = i (.vmap (some entries2)) w) ∧
    (∃ i, NewMapEncoderWithConfig k e cfgU = .ok i ∧
      ∀ w, i (.vmap (some entries1)) w =
        some (w ++ ([123] ++ mapMembersFlat cfgU e true
          (entries1.map (fun kv => (primOut k kv.1, kv.2))) ++
          [125]))) := by
  have hconf2 : conformsEntries entries2 k e = true :=
    conformsEntries_of_mem _ _ _
      (fun kv hkv => conformsEntries_mem hconf kv (hperm.mem_iff.mpr hkv))
  have hc1 : conforms (.vmap (some entries1)) (.map k e) = true := by
    simp [conforms, hconf]
  have hc2 : conforms (.vmap (some entries2)) (.map k e) = true := by
    simp [conforms, hconf2]
  have hlen1 : ¬(entries1.length = 0) := by
    simpa [List.length_eq_zero] using hne
  constructor
  · obtain ⟨i, hc, hm⟩ := mapOK_all cfgS k e hkey hsup
    refine ⟨i, hc, fun w => ?_⟩
    rw [hm (some entries1) hc1 w, hm (some entries2) hc2 w]
    have hlen2 : ¬(entries2.length = 0) := by
      rw [← hperm.length_eq]
      exact hlen1
    have hps : (entries1.map
        (fun kv => ((primOut k kv.1 : Buffer), kv.2))).Perm
        (entries2.map (fun kv => (primOut k kv.1, kv.2))) :=
      hperm.map _
    have hnds : ((List.insertionSort MapEncoder.keLe
        (entries1.map (fun kv => ((primOut k kv.1 : Buffer), kv.2)))).map
        Prod.fst).Nodup := by
      refine (List.Perm.nodup_iff
        ((List.perm_insertionSort MapEncoder.keLe _).map Prod.fst)).mpr ?_
      rw [List.map_map]
      exact hnd
    have hsorteq : List.insertionSort MapEncoder.keLe
        (entries1.map (fun kv => ((primOut k kv.1 : Buffer), kv.2))) =
        List.insertionSort MapEncoder.keLe
        (entries2.map (fun kv => (primOut k kv.1, kv.2))) :=
      sorted_perm_nodup_eq _ _
        ((List.perm_insertionSort _ _).trans
          (hps.trans (List.perm_insertionSort _ _).symm))
        (List.sorted_insertionSort _ _) (List.sorted_insertionSort _ _)
        hnds
    simp only [mapOutBytes, hlen1, hlen2, hS, if_true, if_false,
      ite_true, ite_false, hsorteq]
  · obtain ⟨i, hc, hm⟩ := mapOK_all cfgU k e hkey hsup
    refine ⟨i, hc, fun w => ?_⟩
    rw [hm (some entries1) hc1 w]
    simp [mapOutBytes, hU, hlen1]

/-- C4 witness: a two-entry text map in its two iteration orders —
byte-identical sorted output, and the unordered form listing both
entries once in iteration order. -/
theorem claim4_sorted_determinism_unsorted_coverage_witness :
    (SortedConfig.SortMapKeys = true ∧
     DefaultConfig.SortMapKeys = false ∧
     List.Perm [((.vstr "b" : Val), (.vstr "2" : Val)),
        (.vstr "a", .vstr "1")]
       [(.vstr "a", .vstr "1"), (.vstr "b", .vstr "2")] ∧
     conformsEntries [(.vstr "b", .vstr "2"), (.vstr "a", .vstr "1")]
       .string .string = true ∧
     ([((.vstr "b" : Val), (.vstr "2" : Val)),
        (.vstr "a", .vstr "1")].map
       (fun kv => primOut .string kv.1)).Nodup ∧
     [((.vstr "b" : Val), (.vstr "2" : Val)),
      (.vstr "a", .vstr "1")] ≠ []) ∧
    ((∃ i, NewMapEncoderWithConfig .string .string SortedConfig =
        .ok i ∧
      ∀ w, i (.vmap (some [(.vstr "b", .vstr "2"),
          (.vstr "a", .vstr "1")])) w =
        i (.vmap (some [(.vstr "a", .vstr "1"),
          (.vstr "b", .vstr "2")])) w) ∧
    (∃ i, NewMapEncoderWithConfig .string .string DefaultConfig =
        .ok i ∧
      ∀ w, i (.vmap (some [(.vstr "b", .vstr "2"),
          (.vstr "a", .vstr "1")])) w =
        some (w ++ ([123] ++ mapMembersFlat DefaultConfig .string true
          ([((.vstr "b" : Val), (.vstr "2" : Val)),
            (.vstr "a", .vstr "1")].map
            (fun kv => (primOut .string kv.1, kv.2))) ++ [125])))) := by
  have h1 : SortedConfig.SortMapKeys = true := by decide
  have h2 : DefaultConfig.SortMapKeys = false := by decide
  have h3 : List.Perm [((.vstr "b" : Val), (.vstr "2" : Val)),
      (.vstr "a", .vstr "1")]
      [(.vstr "a", .vstr "1"), (.vstr "b", .vstr "2")] :=
    List.Perm.swap _ _ _
  have h4 : conformsEntries [((.vstr "b" : Val), (.vstr "2" : Val)),
      (.vstr "a", .vstr "1")] .string .string = true := by
    simp [conformsEntries, conforms]
  have h5 : ([((.vstr "b" : Val), (.vstr "2" : Val)),
      (.vstr "a", .vstr "1")].map
      (fun kv => primOut .string kv.1)).Nodup := by
    decide
  have h6 : [((.vstr "b" : Val), (.vstr "2" : Val)),
      (.vstr "a", .vstr "1")] ≠ [] := by simp
  exact ⟨⟨h1, h2, h3, h4, h5, h6⟩,
    claim4_sorted_determinism_unsorted_coverage SortedConfig
      DefaultConfig h1 h2 .string .string rfl (by simp [supportedTy])
      [(.vstr "b", .vstr "2"), (.vstr "a", .vstr "1")]
      [(.vstr "a", .vstr "1"), (.vstr "b", .vstr "2")] h3 h4 h5 h6⟩

end Jingo
